import Mathlib

/-!
Shallow embedding of the hybrid retrieval and ranking engine of the
ConfluxAI repository (services/hybrid_search_service.py and
services/search_service.py), together with proofs that settle the frozen
claims about its specification.

Modelling conventions:
* Python floats are modelled as rationals (ℚ); all arithmetic in the
  fusion path is exact in the source (no overflow-relevant operations).
* Python `Optional[str]` fields that are only ever tested for truthiness
  are modelled as `String`, with `""` playing the role of `None`.
* Python dictionaries (result metadata, facet count maps, the combined
  result map of `_combine_results`) are modelled as association lists with
  insertion-order iteration and first-occurrence lookup, mirroring dict
  semantics under the no-duplicate-keys invariant that dict enforces.
* The external index backends (FAISS, rank-bm25) are not part of the
  repository; their outputs enter the model as parameters: the dense
  candidate list (score-sorted, as FAISS returns it) and the BM25 score
  list.  Wall-clock fields (`processing_time`) appear as an opaque
  rational parameter where the code writes them into result metadata, and
  the response's `processing_time`/`suggestions` fields, which no claim
  mentions, are left out of the modelled response record.
* Fallible calls are modelled with `Except String`; the broad
  `try/except` blocks of the Python code become explicit recovery
  functions.
-/

namespace ConfluxAI

/-- A Python metadata value, as far as the engine inspects one:
the engine stores strings and floats and compares values with `==`
(`models/schemas.py` declares metadata as `Dict[str, Any]`). `none`
stands for Python `None`, the result of `dict.get` on a missing key. -/
inductive MVal where
  | none : MVal
  | str : String → MVal
  | num : ℚ → MVal
deriving DecidableEq, Repr

/-- A metadata dictionary: association list, first occurrence wins. -/
abbrev Meta := List (String × MVal)

/-- First-occurrence lookup in a metadata dictionary. -/
def mlookup (k : String) : Meta → Option MVal
  | [] => Option.none
  | (k', v) :: rest => if k' = k then some v else mlookup k rest

/-- `m.get(k)` of a Python dict: the stored value, or `None` when absent. -/
def mget (m : Meta) (k : String) : MVal :=
  (mlookup k m).getD MVal.none

/-- `m.update(adds)` of a Python dict: keys of `adds` take the new values,
all remaining keys keep their old values (iteration order is irrelevant to
the engine, which only ever reads metadata through `get`). -/
def updateMeta (m adds : Meta) : Meta :=
  adds ++ m.filter (fun p => adds.all (fun a => a.1 ≠ p.1))

/-- `SearchResult` of `models/schemas.py` (the fields the engine reads).
`file_id`, `filename`, `chunk_id` are `Optional[str]` in the source and are
only ever truthiness-tested, so `""` models `None`; `metadata` is
`Optional[Dict]` with `[]` modelling both `None` and `{}` (the code treats
the two identically via truthiness). -/
structure SearchResult where
  content : String
  score : ℚ
  file_id : String
  filename : String
  chunk_id : String
  metadata : Meta
  content_type : String
deriving DecidableEq, Repr

/-- The reconciliation key of `_combine_results`
(hybrid_search_service.py:226,235): `result.chunk_id or
f"{result.file_id}_{hash(result.content[:100])}"`.  The fallback branch is
modelled with the hash argument kept unhashed (Python's `hash` is an
injective stand-in modulo collisions). -/
def keyOf (r : SearchResult) : String ⊕ (String × String) :=
  if r.chunk_id = "" then Sum.inr (r.file_id, r.content.take 100) else Sum.inl r.chunk_id

/-- Reconciliation keys. -/
abbrev RKey := String ⊕ (String × String)

/-- `HybridSearchRequest` of `models/schemas.py` (no field carries any
pydantic validation constraint in the source).  `date_from`/`date_to` are
omitted: the filter body for them is `pass` (hybrid_search_service.py:305).
An empty `metadata_filters` list models both `None` and `{}` (the code
guards with truthiness before iterating). -/
structure HybridSearchRequest where
  query : String
  limit : Nat
  threshold : ℚ
  semantic_weight : ℚ
  keyword_weight : ℚ
  file_types : List String
  content_types : List String
  metadata_filters : Meta
  sort_by : String
  facets : Bool
deriving Repr

/-- Weight normalization of `_combine_results`
(hybrid_search_service.py:212-219): divide by the total when it is
positive, otherwise fall back to the fixed 0.7/0.3 split. -/
def normWeights (sw kw : ℚ) : ℚ × ℚ :=
  if 0 < sw + kw then (sw / (sw + kw), kw / (sw + kw)) else (7/10, 3/10)

/-- Semantic score normalization (hybrid_search_service.py:249):
`min(semantic_score, 1.0)`. -/
def normSemScore (s : ℚ) : ℚ := min s 1

/-- Keyword score normalization (hybrid_search_service.py:250):
`min(keyword_score / 10.0, 1.0) if keyword_score > 0 else 0.0`. -/
def normKwScore (s : ℚ) : ℚ := if 0 < s then min (s / 10) 1 else 0

/-- One value of the `combined_map` dict of `_combine_results`. -/
structure CombEntry where
  result : SearchResult
  semantic_score : ℚ
  keyword_score : ℚ
deriving DecidableEq, Repr

/-- `combined_map[key] = {'result': result, 'semantic_score': result.score,
'keyword_score': 0.0}` (hybrid_search_service.py:225-231): dict assignment,
replacing the value in place when the key exists, appending otherwise. -/
def addSemantic (m : List (RKey × CombEntry)) (r : SearchResult) : List (RKey × CombEntry) :=
  match m with
  | [] => [(keyOf r, ⟨r, r.score, 0⟩)]
  | (k, e) :: rest =>
    if k = keyOf r then (k, ⟨r, r.score, 0⟩) :: rest
    else (k, e) :: addSemantic rest r

/-- Keyword pass of `_combine_results` (hybrid_search_service.py:234-243):
an existing entry only has its `keyword_score` overwritten, a new key gets
a keyword-only entry. -/
def addKeyword (m : List (RKey × CombEntry)) (r : SearchResult) : List (RKey × CombEntry) :=
  match m with
  | [] => [(keyOf r, ⟨r, 0, r.score⟩)]
  | (k, e) :: rest =>
    if k = keyOf r then (k, { e with keyword_score := r.score }) :: rest
    else (k, e) :: addKeyword rest r

/-- The fully built `combined_map`: all semantic results inserted, then all
keyword results folded in. -/
def combineEntries (sem kw : List SearchResult) : List (RKey × CombEntry) :=
  kw.foldl addKeyword (sem.foldl addSemantic [])

/-- Weighted combined score (hybrid_search_service.py:253-254). -/
def combineScore (w1 w2 : ℚ) (e : CombEntry) : ℚ :=
  w1 * normSemScore e.semantic_score + w2 * normKwScore e.keyword_score

/-- The metadata keys `_combine_results` injects into each fused result
(hybrid_search_service.py:263-268). -/
def scoreMetaAdds (e : CombEntry) (cs : ℚ) : Meta :=
  [("semantic_score", MVal.num e.semantic_score),
   ("keyword_score", MVal.num e.keyword_score),
   ("combined_score", MVal.num cs),
   ("search_type", MVal.str "hybrid")]

/-- Fusing one map entry into an output result
(hybrid_search_service.py:256-268): overwrite the score with the combined
score and record the component scores in the metadata. -/
def fuseEntry (w1 w2 : ℚ) (e : CombEntry) : SearchResult :=
  let cs := combineScore w1 w2 e
  { e.result with
    score := cs
    metadata := updateMeta e.result.metadata (scoreMetaAdds e cs) }

/-- Insertion step of a sort by a boolean comes-before relation. -/
def insertBy (lt : SearchResult → SearchResult → Bool) (r : SearchResult) :
    List SearchResult → List SearchResult
  | [] => [r]
  | x :: xs => if lt r x then r :: x :: xs else x :: insertBy lt r xs

/-- Insertion sort by a boolean comes-before relation; models Python's
`sort`/`sorted` (the claims below depend on the output being a permutation
with the stated order key, never on tie order). -/
def sortListBy (lt : SearchResult → SearchResult → Bool) (l : List SearchResult) :
    List SearchResult :=
  l.foldr (insertBy lt) []

/-- Descending sort by score (`combined_results.sort(key=..., reverse=True)`,
hybrid_search_service.py:273). -/
def sortByScoreDesc (l : List SearchResult) : List SearchResult :=
  sortListBy (fun a b => decide (b.score < a.score)) l

/-- `_combine_results` (hybrid_search_service.py:203-274): normalize
weights, build the combined map, fuse every entry, sort descending by
combined score. -/
def combineResults (sem kw : List SearchResult) (sw kww : ℚ) : List SearchResult :=
  let w := normWeights sw kww
  sortByScoreDesc ((combineEntries sem kw).map (fun p => fuseEntry w.1 w.2 p.2))

/-- File-type predicate of `_apply_filters` (hybrid_search_service.py:288-292):
`any(r.filename and r.filename.lower().endswith(f'.{ft.lower()}') ...)`. -/
def fileTypeMatch (filename : String) (fts : List String) : Bool :=
  fts.any (fun ft => filename ≠ "" && filename.toLower.endsWith ("." ++ ft.toLower))

/-- One metadata filter step (hybrid_search_service.py:308-313):
`r.metadata and r.metadata.get(key) == value`. -/
def metaFilterStep (rs : List SearchResult) (kv : String × MVal) : List SearchResult :=
  rs.filter (fun r => !r.metadata.isEmpty && mget r.metadata kv.1 == kv.2)

/-- `_apply_filters` (hybrid_search_service.py:281-321): file types, then
content types, then metadata equality filters, then the score threshold
last.  The date-range branch of the source is a `pass`. -/
def applyFilters (rs : List SearchResult) (req : HybridSearchRequest) : List SearchResult :=
  let f1 := if req.file_types.isEmpty then rs
            else rs.filter (fun r => fileTypeMatch r.filename req.file_types)
  let f2 := if req.content_types.isEmpty then f1
            else f1.filter (fun r => req.content_types.contains r.content_type)
  let f3 := req.metadata_filters.foldl metaFilterStep f2
  f3.filter (fun r => decide (req.threshold ≤ r.score))

/-- Sort key for the `"date"` branch of `_sort_results`
(`x.metadata.get('upload_time', '')`); a non-string stored value is read as
`""` (in the source such a value makes the comparison raise, upon which the
enclosing handler returns the list unsorted — order is irrelevant to every
claim below, only the permutation property is used). -/
def dateKey (r : SearchResult) : String :=
  match mget r.metadata "upload_time" with
  | MVal.str s => s
  | _ => ""

/-- `_sort_results` (hybrid_search_service.py:327-341): relevance (score
descending), date (upload_time descending), filename (ascending), any
other key returns the list unchanged. -/
def sortResults (rs : List SearchResult) (sb : String) : List SearchResult :=
  if sb = "relevance" then sortByScoreDesc rs
  else if sb = "date" then sortListBy (fun a b => decide (dateKey b < dateKey a)) rs
  else if sb = "filename" then sortListBy (fun a b => decide (a.filename < b.filename)) rs
  else rs

/-- A count map bump: `d[k] = d.get(k, 0) + 1`. -/
def bump {κ : Type} [DecidableEq κ] (m : List (κ × Nat)) (k : κ) : List (κ × Nat) :=
  match m with
  | [] => [(k, 1)]
  | (k', c) :: rest => if k' = k then (k', c + 1) :: rest else (k', c) :: bump rest k

/-- The extension key used by `_generate_facets`
(hybrid_search_service.py:353): `result.filename.split('.')[-1].lower()`. -/
def extOf (filename : String) : String :=
  ((filename.splitOn ".").getLastD "").toLower

/-- `SearchFacets` of `models/schemas.py` (count maps; `date_ranges` is
always left empty by the source). -/
structure SearchFacets where
  file_types : List (String × Nat)
  content_types : List (String × Nat)
  date_ranges : List (String × Nat)
  authors : List (MVal × Nat)
deriving DecidableEq, Repr

/-- Facet fold step over one result (hybrid_search_service.py:350-362). -/
def facetStep (acc : List (String × Nat) × List (String × Nat) × List (MVal × Nat))
    (r : SearchResult) : List (String × Nat) × List (String × Nat) × List (MVal × Nat) :=
  let ft := if r.filename = "" then acc.1 else bump acc.1 (extOf r.filename)
  let ct := bump acc.2.1 r.content_type
  let au := if !r.metadata.isEmpty && (mlookup "author" r.metadata).isSome
            then bump acc.2.2 (mget r.metadata "author") else acc.2.2
  (ft, ct, au)

/-- `_generate_facets` (hybrid_search_service.py:343-373). -/
def generateFacets (rs : List SearchResult) : SearchFacets :=
  let z := rs.foldl facetStep ([], [], [])
  ⟨z.1, z.2.1, [], z.2.2⟩

/-- `EnhancedSearchResponse` of `models/schemas.py`, restricted to the
fields any claim mentions (`processing_time` is wall clock; `suggestions`
is unreferenced by the spec's properties). -/
structure EnhancedSearchResponse where
  query : String
  results : List SearchResult
  total_results : Nat
  facets : Option SearchFacets
  search_type : String
deriving Repr

/-- The pure core of `hybrid_search` (hybrid_search_service.py:112-147),
given the two retrieval paths' outputs: combine, filter, sort, truncate to
`limit`, facet over the filtered (not truncated) set, and tag the response
`"hybrid"` exactly when a BM25 index object exists. -/
def hybridPipeline (sem kw : List SearchResult) (bm25Built : Bool)
    (req : HybridSearchRequest) : EnhancedSearchResponse :=
  let combined := combineResults sem kw req.semantic_weight req.keyword_weight
  let filtered := applyFilters combined req
  let limited := (sortResults filtered req.sort_by).take req.limit
  { query := req.query
    results := limited
    total_results := filtered.length
    facets := if req.facets then some (generateFacets filtered) else none
    search_type := if bm25Built then "hybrid" else "semantic" }

/-- The `try/except` of `_get_semantic_results` / `_get_keyword_results`
(hybrid_search_service.py:153-164,166-201): a failed retrieval path is
caught and degraded to the empty result list. -/
def recoverPath (o : Except String (List SearchResult)) : List SearchResult :=
  match o with
  | Except.ok rs => rs
  | Except.error _ => []

/-- `hybrid_search` (hybrid_search_service.py:90-151) with the two
retrieval paths' outcomes supplied as parameters.  `ready` models
`self.initialized`; when false the method raises (line 103-104, re-raised
at line 151).  `bm25Built` models `self.bm25_index` being a live object;
when it is absent `_get_keyword_results` returns `[]` (line 169-170). -/
def hybridSearchService (ready : Bool) (bm25Built : Bool)
    (semOutcome kwOutcome : Except String (List SearchResult))
    (req : HybridSearchRequest) : Except String EnhancedSearchResponse :=
  if ready then
    Except.ok (hybridPipeline (recoverPath semOutcome)
      (if bm25Built then recoverPath kwOutcome else []) bm25Built req)
  else Except.error "Hybrid search service not initialized"

/-- The metadata write `results[0].metadata['processing_time'] = ...` of
`SearchService.search` (search_service.py:223-226), with the wall-clock
value abstracted to a parameter. -/
def injectPT (pt : ℚ) : List SearchResult → List SearchResult
  | [] => []
  | r :: rs => { r with metadata := updateMeta r.metadata [("processing_time", MVal.num pt)] } :: rs

/-- `SearchService.search` (search_service.py:152-229). `docs` is the
indexed corpus annotated with this query's FAISS inner-product scores, in
the score-descending order FAISS returns; the code fetches the top
`min(limit*2, ntotal)`, keeps those with `score >= threshold` (breaking
once `limit` results are collected), and stamps the wall-clock time into
the head result's metadata. -/
def searchServiceSearch (docs : List SearchResult) (limit : Nat) (threshold : ℚ) (pt : ℚ) :
    List SearchResult :=
  injectPT pt (((docs.take (min (limit * 2) docs.length)).filter
    (fun r => decide (threshold ≤ r.score))).take limit)

/-- `hybrid_search` with the dense path expanded: `_get_semantic_results`
calls `SearchService.search` with `limit = request.limit * 2` and the
request's threshold (hybrid_search_service.py:156-161). -/
def hybridSearchModel (docs : List SearchResult) (pt : ℚ) (bm25Built : Bool)
    (kwOutcome : Except String (List SearchResult)) (req : HybridSearchRequest) :
    EnhancedSearchResponse :=
  hybridPipeline (searchServiceSearch docs (req.limit * 2) req.threshold pt)
    (if bm25Built then recoverPath kwOutcome else []) bm25Built req

/-- `_get_keyword_results` (hybrid_search_service.py:166-201): BM25 scores
come from the external `bm25_index.get_scores`, modelled as the `scored`
pairing of score and indexed document; only strictly positive scores
produce results, sorted descending and truncated to `limit * 2`. -/
def getKeywordResults (bm25Built : Bool) (scored : List (ℚ × SearchResult)) (limit : Nat) :
    List SearchResult :=
  if bm25Built then
    (sortByScoreDesc ((scored.filter (fun p => decide (0 < p.1))).map
      (fun p => { p.2 with score := p.1 }))).take (limit * 2)
  else []

/-- The metadata keys the engine itself writes into results during the
dense search and fusion steps. -/
def reservedKeys : List String :=
  ["semantic_score", "keyword_score", "combined_score", "search_type", "processing_time"]

/-- A result list has pairwise-distinct reconciliation keys. -/
def NodupKeys (l : List SearchResult) : Prop :=
  (l.map keyOf).Nodup

/-- An entry list (a modelled dict) has pairwise-distinct keys. -/
def NodupEKeys (l : List (RKey × CombEntry)) : Prop :=
  (l.map Prod.fst).Nodup

/-- `l.find?` by reconciliation key. -/
def findByKey (l : List SearchResult) (k : RKey) : Option SearchResult :=
  l.find? (fun r => decide (keyOf r = k))

/-- Scores descending along the list. -/
def ScoresSortedDesc (l : List SearchResult) : Prop :=
  l.Pairwise (fun a b => b.score ≤ a.score)

/-- `l1` is an initial segment of `l2`. -/
def IsPref (l1 l2 : List SearchResult) : Prop :=
  ∃ t, l1 ++ t = l2

/-- First-occurrence lookup in a modelled combined-map dict. -/
def elookup (k : RKey) : List (RKey × CombEntry) → Option CombEntry
  | [] => Option.none
  | (k', e) :: rest => if k' = k then some e else elookup k rest

/-- First-occurrence lookup in a facet count map. -/
def clookup {κ : Type} [DecidableEq κ] (k : κ) : List (κ × Nat) → Option Nat
  | [] => Option.none
  | (k', c) :: rest => if k' = k then some c else clookup k rest

/-- Number of results in a list carrying a given reconciliation key. -/
def countKey (l : List SearchResult) (k : RKey) : Nat :=
  l.countP (fun r => decide (keyOf r = k))

/-- The predicate of the three pre-threshold filters of `_apply_filters`
(file types, content types, metadata equality), conjoined. -/
def baseFilter (req : HybridSearchRequest) (r : SearchResult) : Bool :=
  (req.file_types.isEmpty || fileTypeMatch r.filename req.file_types) &&
  ((req.content_types.isEmpty || req.content_types.contains r.content_type) &&
   req.metadata_filters.all (fun kv => !r.metadata.isEmpty && mget r.metadata kv.1 == kv.2))

/-- The whole `_apply_filters` predicate: the pre-threshold filters and the
final combined-score threshold. -/
def fullFilter (req : HybridSearchRequest) (r : SearchResult) : Bool :=
  baseFilter req r && decide (req.threshold ≤ r.score)

/-- One stored document of `SearchService.documents`
(search_service.py:123-132; the `timestamp` field is wall clock and read by
nothing the claims mention). -/
structure Doc where
  chunk_id : String
  file_id : String
  filename : String
  content : String
  content_type : String
  chunk_index : Nat
  metadata : Meta
deriving DecidableEq, Repr

/-- The loop of `delete_file_documents` (search_service.py:242-249):
partition the stored documents into the survivors (in order) and the count
of deleted ones. -/
def keepAndCount (fid : String) : List Doc → List Doc × Nat
  | [] => ([], 0)
  | d :: rest =>
    let p := keepAndCount fid rest
    if d.file_id ≠ fid then (d :: p.1, p.2) else (p.1, p.2 + 1)

/-- The dense-index-owning state of `SearchService`: the stored document
metadata list and the FAISS vector store, the latter modelled as the list
of stored vectors.  The embedding model is an external collaborator and is
abstracted as a function parameter where used. -/
structure SearchServiceState where
  documents : List Doc
  index : List (List ℚ)
deriving Repr

/-- `_rebuild_index` (search_service.py:265-290): a fresh vector store
holding exactly the re-encoded embeddings of the current documents. -/
def rebuildIndex (embed : String → List ℚ) (s : SearchServiceState) : SearchServiceState :=
  { s with index := s.documents.map (fun d => embed d.content) }

/-- `delete_file_documents` (search_service.py:235-263): when at least one
document matches the file_id, keep the survivors, rebuild the index over
them and return `true`; otherwise leave the state untouched and return
`false`. -/
def deleteFileDocuments (embed : String → List ℚ) (s : SearchServiceState) (fid : String) :
    SearchServiceState × Bool :=
  let p := keepAndCount fid s.documents
  if 0 < p.2 then (rebuildIndex embed { s with documents := p.1 }, true) else (s, false)

/-- Python `\w` word characters, at the ASCII level the corpus uses. -/
def isWordChar (c : Char) : Bool := c.isAlphanum || c = '_'

/-- Accumulating scanner behind `_tokenize_text`: split a character stream
into maximal word-character runs. -/
def tokensAux : List Char → List Char → List String
  | [], acc => if acc.isEmpty then [] else [String.mk acc.reverse]
  | c :: cs, acc =>
    if isWordChar c then tokensAux cs (c :: acc)
    else if acc.isEmpty then tokensAux cs [] else String.mk acc.reverse :: tokensAux cs []

/-- `_tokenize_text` (hybrid_search_service.py:83-88):
`re.findall(r'\b\w+\b', text.lower())`. -/
def tokenizeText (t : String) : List String :=
  tokensAux t.toLower.toList []

/-- The BM25-owning state of `HybridSearchService`: the raw document texts,
their metadata (aligned by position), and the built BM25 index, modelled by
its defining corpus of token lists (`None` when never built or emptied). -/
structure Bm25State where
  documents_for_bm25 : List String
  document_metadata : List Doc
  bm25_index : Option (List (List String))
deriving Repr

/-- `remove_from_bm25_index` (hybrid_search_service.py:427-455): a no-op
when no index exists; otherwise drop every position whose metadata carries
the removed file_id and rebuild the index over the surviving texts (or drop
it entirely when none survive). -/
def removeFromBm25Index (b : Bm25State) (fid : String) : Bm25State :=
  match b.bm25_index with
  | Option.none => b
  | some _ =>
    let kept := (b.document_metadata.zip b.documents_for_bm25).filter
      (fun p => decide (p.1.file_id ≠ fid))
    { documents_for_bm25 := kept.map Prod.snd
      document_metadata := kept.map Prod.fst
      bm25_index := if kept.isEmpty then Option.none
                    else some ((kept.map Prod.snd).map tokenizeText) }

/-- A default result used only to pick concrete members of computed result
lists in witness statements. -/
def defaultResult : SearchResult := ⟨"", 0, "", "", "", [], ""⟩

/-- Concrete request used by the C4 counterexample. -/
def c4req : HybridSearchRequest := ⟨"q", 10, 7/10, 7/10, 3/10, [], [], [], "relevance", false⟩

/-- Concrete request violating all three validity conditions at once:
empty query, non-positive limit, negative semantic weight (used by the C7
counterexample). -/
def invalidReq : HybridSearchRequest := ⟨"", 0, 7/10, -1, 3/10, [], [], [], "relevance", false⟩

/-- Dense candidate whose FAISS cosine score is negative (used by the C1
counterexample). -/
def c1docs : List SearchResult := [⟨"alpha content", -1/2, "f1", "a.pdf", "c1", [], "text"⟩]

/-- Request with the schema-unconstrained threshold -1 and the default
0.7/0.3 weights (used by the C1 counterexample). -/
def c1req : HybridSearchRequest := ⟨"q", 5, -1, 7/10, 3/10, [], [], [], "relevance", false⟩

/-- Dense candidate list for the C1 witness run. -/
def c1wdocs : List SearchResult := [⟨"alpha content", 1/2, "f1", "a.pdf", "c1", [], "text"⟩]

/-- Request for the C1 witness run (nonnegative threshold and weights). -/
def c1wreq : HybridSearchRequest := ⟨"q", 5, 0, 7/10, 3/10, [], [], [], "relevance", false⟩

/-- The concrete returned result inspected by the C1 witness. -/
def c1wres : SearchResult :=
  (hybridSearchModel c1wdocs 0 true (Except.ok []) c1wreq).results.headD defaultResult

/-- Dense result for the C3 witness: chunk c1, dense score 1/2. -/
def c3sem : List SearchResult := [⟨"shared chunk content", 1/2, "f1", "a.pdf", "c1", [], "text"⟩]

/-- Lexical result for the C3 witness: same chunk c1, BM25 score 5. -/
def c3kw : List SearchResult := [⟨"shared chunk content", 5, "f1", "a.pdf", "c1", [], "text"⟩]

/-- Lexical retrieval output used by the C10 witness. -/
def c10res : SearchResult := ⟨"keyword doc", 5, "f2", "b.txt", "c2", [], "text"⟩

/-- Scored corpus pairing for the C10 witness: one document with BM25
score 5. -/
def c10scored : List (ℚ × SearchResult) := [(5, ⟨"keyword doc", 0, "f2", "b.txt", "c2", [], "text"⟩)]

/-- Dense candidates for the C5 counterexample: one chunk whose dense
score 11/20 lies between the two thresholds. -/
def c5cdocs : List SearchResult := [⟨"sem content", 11/20, "f1", "a.pdf", "c1", [], "text"⟩]

/-- Lexical results for the C5 counterexample: the same chunk with BM25
score 10 (normalizing to 1). -/
def c5ckw : List SearchResult := [⟨"sem content", 10, "f1", "a.pdf", "c1", [], "text"⟩]

/-- Request for the C5 counterexample, parameterized by the threshold:
dense weight 0, lexical weight 1, and a metadata filter keying on the
`semantic_score` field that fusion itself injects into result metadata. -/
def c5creq (t : ℚ) : HybridSearchRequest :=
  ⟨"q", 5, t, 0, 1, [], [], [("semantic_score", MVal.num 0)], "relevance", false⟩

/-- Dense candidates for the C5 witness. -/
def c5wdocs : List SearchResult := [⟨"alpha content", 1/2, "f1", "a.pdf", "c1", [], "text"⟩]

/-- Lexical results for the C5 witness (same corpus chunk). -/
def c5wkw : List SearchResult := [⟨"alpha content", 5, "f1", "a.pdf", "c1", [], "text"⟩]

/-- Request for the C5 witness (no metadata filters). -/
def c5wreq : HybridSearchRequest := ⟨"q", 5, 0, 7/10, 3/10, [], [], [], "relevance", false⟩

/-- Dense candidate list for the C6 runs: one chunk with cosine score 4/5. -/
def c6docs : List SearchResult := [⟨"doc content", 4/5, "f1", "a.pdf", "c1", [], "text"⟩]

/-- Request for the C6 counterexample: threshold 3/4, weights 0.7/0.3.
Dense-only search returns the chunk (4/5 ≥ 3/4) but the degraded hybrid
rescales 4/5 to 14/25 < 3/4 and drops it. -/
def c6req : HybridSearchRequest := ⟨"q", 5, 3/4, 7/10, 3/10, [], [], [], "relevance", false⟩

/-- Request for the C6 witness: threshold 1/2, so the rescaled chunk
survives. -/
def c6wreq : HybridSearchRequest := ⟨"q", 5, 1/2, 7/10, 3/10, [], [], [], "relevance", false⟩

/-- The concrete returned result inspected by the C6 witness. -/
def c6wres : SearchResult :=
  (hybridSearchModel c6docs 0 false (Except.ok []) c6wreq).results.headD defaultResult

/-- Trivial embedding used by the C8 witness. -/
def wembed : String → List ℚ := fun _ => []

/-- Stored document of file f1 (C8 witness). -/
def wdoc1 : Doc := ⟨"c1", "f1", "a.pdf", "alpha", "text", 0, []⟩

/-- Stored document of file f2 (C8 witness). -/
def wdoc2 : Doc := ⟨"c2", "f2", "b.txt", "beta", "text", 0, []⟩

/-- Concrete dense-index state for the C8 witness. -/
def wstate : SearchServiceState := ⟨[wdoc1, wdoc2], [[], []]⟩

/-- Concrete BM25 state for the C8 witness. -/
def wbm : Bm25State := ⟨["alpha", "beta"], [wdoc1, wdoc2], some [["alpha"], ["beta"]]⟩

lemma insertBy_perm (lt : SearchResult → SearchResult → Bool) (r : SearchResult)
    (l : List SearchResult) : (insertBy lt r l).Perm (r :: l) := by
  induction l with
  | nil => simp [insertBy]
  | cons x xs ih =>
    simp only [insertBy]
    by_cases h : lt r x = true
    · simp [h]
    · simp only [h, if_false]
      exact (ih.cons x).trans (List.Perm.swap r x xs)

lemma sortListBy_perm (lt : SearchResult → SearchResult → Bool) (l : List SearchResult) :
    (sortListBy lt l).Perm l := by
  induction l with
  | nil => exact List.Perm.refl _
  | cons x xs ih => exact (insertBy_perm lt x (sortListBy lt xs)).trans (ih.cons x)

lemma mem_sortListBy {lt : SearchResult → SearchResult → Bool} {l : List SearchResult}
    {a : SearchResult} : a ∈ sortListBy lt l ↔ a ∈ l :=
  (sortListBy_perm lt l).mem_iff

lemma sortByScoreDesc_perm (l : List SearchResult) : (sortByScoreDesc l).Perm l :=
  sortListBy_perm _ l

lemma sortResults_perm (rs : List SearchResult) (sb : String) :
    (sortResults rs sb).Perm rs := by
  unfold sortResults
  split_ifs <;> first | exact sortListBy_perm _ _ | exact List.Perm.refl _

lemma foldl_metaFilterStep (mf : Meta) (rs : List SearchResult) :
    mf.foldl metaFilterStep rs =
      rs.filter (fun r => mf.all (fun kv => !r.metadata.isEmpty && mget r.metadata kv.1 == kv.2)) := by
  induction mf generalizing rs with
  | nil => simp
  | cons kv rest ih =>
    simp only [List.foldl_cons, metaFilterStep, ih, List.filter_filter, List.all_cons]
    exact List.filter_congr (fun r _ => by rw [Bool.and_comm])

lemma applyFilters_eq_filter (rs : List SearchResult) (req : HybridSearchRequest) :
    applyFilters rs req = rs.filter (fullFilter req) := by
  simp only [applyFilters, foldl_metaFilterStep]
  by_cases h1 : req.file_types.isEmpty <;> by_cases h2 : req.content_types.isEmpty
  · rw [if_pos h1, if_pos h2, List.filter_filter]
    exact List.filter_congr fun r _ => by
      simp [fullFilter, baseFilter, h1, h2, Bool.and_comm, Bool.and_left_comm, Bool.and_assoc]
  · rw [if_pos h1, if_neg h2, List.filter_filter, List.filter_filter]
    exact List.filter_congr fun r _ => by
      simp [fullFilter, baseFilter, h1, h2, Bool.and_comm, Bool.and_left_comm, Bool.and_assoc]
  · rw [if_neg h1, if_pos h2, List.filter_filter, List.filter_filter]
    exact List.filter_congr fun r _ => by
      simp [fullFilter, baseFilter, h1, h2, Bool.and_comm, Bool.and_left_comm, Bool.and_assoc]
  · rw [if_neg h1, if_neg h2, List.filter_filter, List.filter_filter, List.filter_filter]
    exact List.filter_congr fun r _ => by
      simp [fullFilter, baseFilter, h1, h2, Bool.and_comm, Bool.and_left_comm, Bool.and_assoc]

lemma mem_applyFilters {r : SearchResult} {rs : List SearchResult} {req : HybridSearchRequest} :
    r ∈ applyFilters rs req ↔ r ∈ rs ∧ fullFilter req r = true := by
  rw [applyFilters_eq_filter]
  simp [List.mem_filter]

lemma length_applyFilters (rs : List SearchResult) (req : HybridSearchRequest) :
    (applyFilters rs req).length = rs.countP (fullFilter req) := by
  rw [applyFilters_eq_filter, List.countP_eq_length_filter]

lemma mem_addSemantic {m : List (RKey × CombEntry)} {r : SearchResult} {p : RKey × CombEntry}
    (hp : p ∈ addSemantic m r) : p ∈ m ∨ p = (keyOf r, ⟨r, r.score, 0⟩) := by
  induction m with
  | nil => simpa [addSemantic] using hp
  | cons q rest ih =>
    obtain ⟨k, e⟩ := q
    simp only [addSemantic] at hp
    split_ifs at hp with h
    · rcases List.mem_cons.mp hp with h' | h'
      · exact Or.inr (by rw [h', h])
      · exact Or.inl (List.mem_cons_of_mem _ h')
    · rcases List.mem_cons.mp hp with h' | h'
      · exact Or.inl (h' ▸ List.mem_cons_self _ _)
      · rcases ih h' with h'' | h''
        · exact Or.inl (List.mem_cons_of_mem _ h'')
        · exact Or.inr h''

lemma mem_addKeyword {m : List (RKey × CombEntry)} {r : SearchResult} {p : RKey × CombEntry}
    (hp : p ∈ addKeyword m r) :
    (∃ q ∈ m, p.1 = q.1 ∧ p.2.result = q.2.result ∧ p.2.semantic_score = q.2.semantic_score) ∨
    p = (keyOf r, ⟨r, 0, r.score⟩) := by
  induction m with
  | nil => simpa [addKeyword] using hp
  | cons q rest ih =>
    obtain ⟨k, e⟩ := q
    simp only [addKeyword] at hp
    split_ifs at hp with h
    · rcases List.mem_cons.mp hp with h' | h'
      · exact Or.inl ⟨(k, e), List.mem_cons_self _ _, by simp [h']⟩
      · exact Or.inl ⟨p, List.mem_cons_of_mem _ h', rfl, rfl, rfl⟩
    · rcases List.mem_cons.mp hp with h' | h'
      · exact Or.inl ⟨(k, e), List.mem_cons_self _ _, by simp [h']⟩
      · rcases ih h' with ⟨q', hq', hh⟩ | h''
        · exact Or.inl ⟨q', List.mem_cons_of_mem _ hq', hh⟩
        · exact Or.inr h''

lemma mem_foldl_addSemantic {sem : List SearchResult} {m : List (RKey × CombEntry)}
    {p : RKey × CombEntry} (hp : p ∈ sem.foldl addSemantic m) :
    p ∈ m ∨ ∃ r ∈ sem, p = (keyOf r, ⟨r, r.score, 0⟩) := by
  induction sem generalizing m with
  | nil => exact Or.inl hp
  | cons x xs ih =>
    rcases ih hp with h | h
    · rcases mem_addSemantic h with h' | h'
      · exact Or.inl h'
      · exact Or.inr ⟨x, List.mem_cons_self _ _, h'⟩
    · obtain ⟨r, hr, hh⟩ := h
      exact Or.inr ⟨r, List.mem_cons_of_mem _ hr, hh⟩

lemma mem_foldl_addKeyword {kw : List SearchResult} {m : List (RKey × CombEntry)}
    {p : RKey × CombEntry} (hp : p ∈ kw.foldl addKeyword m) :
    (∃ q ∈ m, p.1 = q.1 ∧ p.2.result = q.2.result ∧ p.2.semantic_score = q.2.semantic_score) ∨
    (∃ r ∈ kw, p.1 = keyOf r ∧ p.2.result = r ∧ p.2.semantic_score = 0) := by
  induction kw generalizing m with
  | nil => exact Or.inl ⟨p, hp, rfl, rfl, rfl⟩
  | cons x xs ih =>
    rcases ih hp with ⟨q, hq, h1, h2, h3⟩ | h
    · rcases mem_addKeyword hq with ⟨q', hq', h1', h2', h3'⟩ | h'
      · exact Or.inl ⟨q', hq', h1.trans h1', h2.trans h2', h3.trans h3'⟩
      · refine Or.inr ⟨x, List.mem_cons_self _ _, ?_, ?_, ?_⟩
        · rw [h1, h']
        · rw [h2, h']
        · rw [h3, h']
    · obtain ⟨r, hr, hh⟩ := h
      exact Or.inr ⟨r, List.mem_cons_of_mem _ hr, hh⟩

lemma combineEntries_provenance {sem kw : List SearchResult} {p : RKey × CombEntry}
    (hp : p ∈ combineEntries sem kw) :
    (∃ r ∈ sem, p.1 = keyOf r ∧ p.2.result = r ∧ p.2.semantic_score = r.score) ∨
    (∃ r ∈ kw, p.1 = keyOf r ∧ p.2.result = r ∧ p.2.semantic_score = 0) := by
  rcases mem_foldl_addKeyword hp with ⟨q, hq, h1, h2, h3⟩ | h
  · rcases mem_foldl_addSemantic hq with h' | h'
    · simp at h'
    · obtain ⟨r, hr, hh⟩ := h'
      refine Or.inl ⟨r, hr, ?_, ?_, ?_⟩
      · rw [h1, hh]
      · rw [h2, hh]
      · rw [h3, hh]
  · exact Or.inr h

lemma keyOf_fuseEntry (w1 w2 : ℚ) (e : CombEntry) :
    keyOf (fuseEntry w1 w2 e) = keyOf e.result := rfl

lemma fuseEntry_score (w1 w2 : ℚ) (e : CombEntry) :
    (fuseEntry w1 w2 e).score = combineScore w1 w2 e := rfl

lemma mem_results_model {docs : List SearchResult} {pt : ℚ} {b : Bool}
    {kwO : Except String (List SearchResult)} {req : HybridSearchRequest} {r : SearchResult}
    (hr : r ∈ (hybridSearchModel docs pt b kwO req).results) :
    ∃ p ∈ combineEntries (searchServiceSearch docs (req.limit * 2) req.threshold pt)
        (if b then recoverPath kwO else []),
      r = fuseEntry (normWeights req.semantic_weight req.keyword_weight).1
            (normWeights req.semantic_weight req.keyword_weight).2 p.2 := by
  unfold hybridSearchModel hybridPipeline at hr
  simp only at hr
  have h1 : r ∈ sortResults (applyFilters (combineResults
      (searchServiceSearch docs (req.limit * 2) req.threshold pt)
      (if b then recoverPath kwO else []) req.semantic_weight req.keyword_weight) req)
      req.sort_by := List.mem_of_mem_take hr
  have h2 := ((sortResults_perm _ _).mem_iff).mp h1
  have h3 := (mem_applyFilters.mp h2).1
  simp only [combineResults, sortByScoreDesc] at h3
  rw [mem_sortListBy] at h3
  obtain ⟨p, hp, hfe⟩ := List.mem_map.mp h3
  exact ⟨p, hp, hfe.symm⟩

lemma normWeights_bounds {sw kw : ℚ} (h1 : 0 ≤ sw) (h2 : 0 ≤ kw) :
    0 ≤ (normWeights sw kw).1 ∧ 0 ≤ (normWeights sw kw).2 ∧
    (normWeights sw kw).1 + (normWeights sw kw).2 = 1 := by
  unfold normWeights
  split_ifs with h
  · refine ⟨div_nonneg h1 h.le, div_nonneg h2 h.le, ?_⟩
    field_simp
  · norm_num

lemma normKwScore_bounds (s : ℚ) : 0 ≤ normKwScore s ∧ normKwScore s ≤ 1 := by
  unfold normKwScore
  split_ifs with h
  · exact ⟨le_min (by positivity) zero_le_one, min_le_right _ _⟩
  · norm_num

lemma combineScore_bounds {w1 w2 : ℚ} {e : CombEntry} (hw1 : 0 ≤ w1) (hw2 : 0 ≤ w2)
    (hsum : w1 + w2 = 1) (hs : 0 ≤ e.semantic_score) :
    0 ≤ combineScore w1 w2 e ∧ combineScore w1 w2 e ≤ 1 := by
  have hns : 0 ≤ normSemScore e.semantic_score ∧ normSemScore e.semantic_score ≤ 1 :=
    ⟨le_min hs zero_le_one, min_le_right _ _⟩
  have hnk := normKwScore_bounds e.keyword_score
  unfold combineScore
  constructor
  · exact add_nonneg (mul_nonneg hw1 hns.1) (mul_nonneg hw2 hnk.1)
  · calc w1 * normSemScore e.semantic_score + w2 * normKwScore e.keyword_score
        ≤ w1 * 1 + w2 * 1 :=
          add_le_add (mul_le_mul_of_nonneg_left hns.2 hw1)
            (mul_le_mul_of_nonneg_left hnk.2 hw2)
      _ = 1 := by rw [mul_one, mul_one, hsum]

lemma mget_updateMeta_of_notin {m adds : Meta} {k : String}
    (h : ∀ kv ∈ adds, kv.1 ≠ k) : mget (updateMeta m adds) k = mget m k := by
  unfold updateMeta mget
  have hadds : ∀ a : Meta, (∀ kv ∈ a, kv.1 ≠ k) →
      mlookup k (a ++ m.filter (fun p => adds.all (fun q => q.1 ≠ p.1))) =
        mlookup k (m.filter (fun p => adds.all (fun q => q.1 ≠ p.1))) := by
    intro a
    induction a with
    | nil => intro _; rfl
    | cons kv rest ih =>
      obtain ⟨k', v⟩ := kv
      intro ha
      have hne : k' ≠ k := by simpa using ha (k', v) (List.mem_cons_self _ _)
      simp only [List.cons_append, mlookup, if_neg hne]
      exact ih (fun q hq => ha q (List.mem_cons_of_mem _ hq))
  rw [hadds adds h]
  have hfil : ∀ (l : Meta), mlookup k (l.filter (fun p => adds.all (fun q => q.1 ≠ p.1))) =
      mlookup k l := by
    intro l
    induction l with
    | nil => rfl
    | cons kv rest ih =>
      obtain ⟨k', v⟩ := kv
      by_cases hk : k' = k
      · subst hk
        have hkeep : (adds.all (fun q => decide (q.1 ≠ k'))) = true := by
          rw [List.all_eq_true]
          intro q hq
          simpa using h q hq
        simp only [decide_not] at hkeep
        simp [List.filter_cons, hkeep, mlookup]
      · by_cases hkeep : (adds.all (fun q => decide (q.1 ≠ k'))) = true
        · simp only [decide_not] at hkeep ih
          simp [List.filter_cons, hkeep, mlookup, hk, ih]
        · simp only [Bool.not_eq_true] at hkeep
          simp only [decide_not] at hkeep ih
          simp [List.filter_cons, hkeep, mlookup, hk, ih]
  rw [hfil m]

lemma injectPT_members {pt : ℚ} {l : List SearchResult} {r : SearchResult}
    (hr : r ∈ injectPT pt l) :
    ∃ x ∈ l, r.score = x.score ∧ r.filename = x.filename ∧
      r.content_type = x.content_type ∧ keyOf r = keyOf x ∧
      ∀ k, k ≠ "processing_time" → mget r.metadata k = mget x.metadata k := by
  cases l with
  | nil => simp [injectPT] at hr
  | cons x xs =>
    simp only [injectPT, List.mem_cons] at hr
    rcases hr with h | h
    · refine ⟨x, List.mem_cons_self _ _, by rw [h], by rw [h], by rw [h],
        (by rw [h]; exact rfl), ?_⟩
      intro k hk
      rw [h]
      exact mget_updateMeta_of_notin (by simpa using fun h' => (hk h'.symm).elim)
    · exact ⟨r, List.mem_cons_of_mem _ h, rfl, rfl, rfl, rfl, fun _ _ => rfl⟩

lemma mem_searchServiceSearch {r : SearchResult} {docs : List SearchResult} {L : Nat}
    {t pt : ℚ} (hr : r ∈ searchServiceSearch docs L t pt) : t ≤ r.score := by
  unfold searchServiceSearch at hr
  obtain ⟨x, hx, hs, -⟩ := injectPT_members hr
  have hx' := List.mem_of_mem_take hx
  have := (List.mem_filter.mp hx').2
  rw [hs]
  exact of_decide_eq_true this

lemma elookup_addSemantic (m : List (RKey × CombEntry)) (r : SearchResult) (k : RKey) :
    elookup k (addSemantic m r) =
      if keyOf r = k then some ⟨r, r.score, 0⟩ else elookup k m := by
  induction m with
  | nil => simp [addSemantic, elookup]
  | cons q rest ih =>
    obtain ⟨k', e⟩ := q
    simp only [addSemantic]
    by_cases h : k' = keyOf r
    · rw [if_pos h]
      by_cases h2 : k' = k
      · have hrk : keyOf r = k := h ▸ h2
        simp [elookup, h2, hrk]
      · have hrk : ¬ keyOf r = k := fun hc => h2 (h.trans hc)
        simp [elookup, h2, hrk]
    · rw [if_neg h]
      by_cases h2 : k' = k
      · have hrk : ¬ keyOf r = k := fun hc => h (h2.trans hc.symm)
        simp [elookup, h2, hrk]
      · simp [elookup, h2, ih]

lemma elookup_addKeyword (m : List (RKey × CombEntry)) (r : SearchResult) (k : RKey) :
    elookup k (addKeyword m r) =
      if keyOf r = k then
        (match elookup k m with
         | some e => some { e with keyword_score := r.score }
         | Option.none => some ⟨r, 0, r.score⟩)
      else elookup k m := by
  induction m with
  | nil => simp [addKeyword, elookup]
  | cons q rest ih =>
    obtain ⟨k', e⟩ := q
    simp only [addKeyword]
    by_cases h : k' = keyOf r
    · rw [if_pos h]
      by_cases h2 : k' = k
      · have hrk : keyOf r = k := h ▸ h2
        simp [elookup, h2, hrk]
      · have hrk : ¬ keyOf r = k := fun hc => h2 (h.trans hc)
        simp [elookup, h2, hrk]
    · rw [if_neg h]
      by_cases h2 : k' = k
      · have hrk : ¬ keyOf r = k := fun hc => h (h2.trans hc.symm)
        simp [elookup, h2, hrk]
      · simp [elookup, h2, ih]

lemma findByKey_eq_none {l : List SearchResult} {k : RKey}
    (h : ∀ r ∈ l, keyOf r ≠ k) : findByKey l k = Option.none := by
  unfold findByKey
  rw [List.find?_eq_none]
  intro x hx
  simpa using h x hx

lemma elookup_foldl_addSemantic {sem : List SearchResult} {m : List (RKey × CombEntry)}
    {k : RKey} (hs : NodupKeys sem) :
    elookup k (sem.foldl addSemantic m) =
      (match findByKey sem k with
       | some r => some ⟨r, r.score, 0⟩
       | Option.none => elookup k m) := by
  induction sem generalizing m with
  | nil => simp [findByKey]
  | cons x xs ih =>
    have hxs : NodupKeys xs := (List.nodup_cons.mp hs).2
    have hxnot : keyOf x ∉ xs.map keyOf := (List.nodup_cons.mp hs).1
    simp only [List.foldl_cons]
    rw [ih hxs]
    by_cases h : keyOf x = k
    · subst h
      have hnone : findByKey xs (keyOf x) = Option.none := by
        apply findByKey_eq_none
        intro r hr he
        exact hxnot (he ▸ List.mem_map_of_mem keyOf hr)
      rw [hnone]
      have : findByKey (x :: xs) (keyOf x) = some x := by
        unfold findByKey
        simp [List.find?_cons]
      rw [this, elookup_addSemantic, if_pos rfl]
    · have : findByKey (x :: xs) k = findByKey xs k := by
        unfold findByKey
        rw [List.find?_cons_of_neg]
        simpa using h
      rw [this]
      cases hfb : findByKey xs k with
      | none => rw [elookup_addSemantic, if_neg h]
      | some r => rfl

lemma elookup_foldl_addKeyword {kw : List SearchResult} {m : List (RKey × CombEntry)}
    {k : RKey} (hk : NodupKeys kw) :
    elookup k (kw.foldl addKeyword m) =
      (match findByKey kw k with
       | some r =>
         (match elookup k m with
          | some e => some { e with keyword_score := r.score }
          | Option.none => some ⟨r, 0, r.score⟩)
       | Option.none => elookup k m) := by
  induction kw generalizing m with
  | nil => simp [findByKey]
  | cons x xs ih =>
    have hxs : NodupKeys xs := (List.nodup_cons.mp hk).2
    have hxnot : keyOf x ∉ xs.map keyOf := (List.nodup_cons.mp hk).1
    simp only [List.foldl_cons]
    rw [ih hxs]
    by_cases h : keyOf x = k
    · subst h
      have hnone : findByKey xs (keyOf x) = Option.none := by
        apply findByKey_eq_none
        intro r hr he
        exact hxnot (he ▸ List.mem_map_of_mem keyOf hr)
      rw [hnone]
      have : findByKey (x :: xs) (keyOf x) = some x := by
        unfold findByKey
        simp [List.find?_cons]
      rw [this, elookup_addKeyword, if_pos rfl]
    · have : findByKey (x :: xs) k = findByKey xs k := by
        unfold findByKey
        rw [List.find?_cons_of_neg]
        simpa using h
      rw [this]
      cases hfb : findByKey xs k with
      | none => rw [elookup_addKeyword, if_neg h]
      | some r => rw [elookup_addKeyword, if_neg h]

lemma elookup_combineEntries {sem kw : List SearchResult} {k : RKey}
    (hs : NodupKeys sem) (hk : NodupKeys kw) :
    elookup k (combineEntries sem kw) =
      (match findByKey sem k, findByKey kw k with
       | some rs, some rk => some ⟨rs, rs.score, rk.score⟩
       | some rs, Option.none => some ⟨rs, rs.score, 0⟩
       | Option.none, some rk => some ⟨rk, 0, rk.score⟩
       | Option.none, Option.none => Option.none) := by
  unfold combineEntries
  rw [elookup_foldl_addKeyword hk, elookup_foldl_addSemantic hs]
  cases findByKey sem k <;> cases findByKey kw k <;> simp [elookup]

lemma mem_keys_addSemantic {m : List (RKey × CombEntry)} {r : SearchResult} {k : RKey} :
    k ∈ (addSemantic m r).map Prod.fst ↔ k ∈ m.map Prod.fst ∨ k = keyOf r := by
  induction m with
  | nil => simp [addSemantic, eq_comm]
  | cons q rest ih =>
    obtain ⟨k', e⟩ := q
    simp only [addSemantic]
    by_cases h : k' = keyOf r
    · subst h
      simp [eq_comm]
      tauto
    · simp only [if_neg h, List.map_cons, List.mem_cons, ih]
      tauto

lemma mem_keys_addKeyword {m : List (RKey × CombEntry)} {r : SearchResult} {k : RKey} :
    k ∈ (addKeyword m r).map Prod.fst ↔ k ∈ m.map Prod.fst ∨ k = keyOf r := by
  induction m with
  | nil => simp [addKeyword, eq_comm]
  | cons q rest ih =>
    obtain ⟨k', e⟩ := q
    simp only [addKeyword]
    by_cases h : k' = keyOf r
    · subst h
      simp [eq_comm]
      tauto
    · simp only [if_neg h, List.map_cons, List.mem_cons, ih]
      tauto

lemma nodupEKeys_addSemantic {m : List (RKey × CombEntry)} {r : SearchResult}
    (h : NodupEKeys m) : NodupEKeys (addSemantic m r) := by
  induction m with
  | nil => simp [addSemantic, NodupEKeys]
  | cons q rest ih =>
    obtain ⟨k', e⟩ := q
    have h1 : k' ∉ rest.map Prod.fst := (List.nodup_cons.mp h).1
    have h2 : NodupEKeys rest := (List.nodup_cons.mp h).2
    simp only [addSemantic]
    by_cases hc : k' = keyOf r
    · rw [if_pos hc]
      exact h
    · rw [if_neg hc, NodupEKeys, List.map_cons, List.nodup_cons]
      refine ⟨?_, ih h2⟩
      rw [mem_keys_addSemantic]
      rintro (hin | hin)
      · exact h1 hin
      · exact hc hin

lemma nodupEKeys_addKeyword {m : List (RKey × CombEntry)} {r : SearchResult}
    (h : NodupEKeys m) : NodupEKeys (addKeyword m r) := by
  induction m with
  | nil => simp [addKeyword, NodupEKeys]
  | cons q rest ih =>
    obtain ⟨k', e⟩ := q
    have h1 : k' ∉ rest.map Prod.fst := (List.nodup_cons.mp h).1
    have h2 : NodupEKeys rest := (List.nodup_cons.mp h).2
    simp only [addKeyword]
    by_cases hc : k' = keyOf r
    · rw [if_pos hc]
      rw [NodupEKeys, List.map_cons, List.nodup_cons]
      exact ⟨h1, h2⟩
    · rw [if_neg hc, NodupEKeys, List.map_cons, List.nodup_cons]
      refine ⟨?_, ih h2⟩
      rw [mem_keys_addKeyword]
      rintro (hin | hin)
      · exact h1 hin
      · exact hc hin

lemma nodupEKeys_combineEntries (sem kw : List SearchResult) :
    NodupEKeys (combineEntries sem kw) := by
  unfold combineEntries
  have h1 : ∀ (l : List SearchResult) (m : List (RKey × CombEntry)), NodupEKeys m →
      NodupEKeys (l.foldl addSemantic m) := by
    intro l
    induction l with
    | nil => intro m hm; exact hm
    | cons x xs ih => intro m hm; exact ih _ (nodupEKeys_addSemantic hm)
  have h2 : ∀ (l : List SearchResult) (m : List (RKey × CombEntry)), NodupEKeys m →
      NodupEKeys (l.foldl addKeyword m) := by
    intro l
    induction l with
    | nil => intro m hm; exact hm
    | cons x xs ih => intro m hm; exact ih _ (nodupEKeys_addKeyword hm)
  exact h2 kw _ (h1 sem [] (by simp [NodupEKeys]))

lemma elookup_mem {l : List (RKey × CombEntry)} {k : RKey} {e : CombEntry}
    (h : elookup k l = some e) : (k, e) ∈ l := by
  induction l with
  | nil => simp [elookup] at h
  | cons q rest ih =>
    obtain ⟨k', e'⟩ := q
    simp only [elookup] at h
    split_ifs at h with hc
    · subst hc
      cases h
      exact List.mem_cons_self _ _
    · exact List.mem_cons_of_mem _ (ih h)

lemma countP_key_of_nodup {l : List (RKey × CombEntry)} {k : RKey} (h : NodupEKeys l) :
    l.countP (fun p => decide (p.1 = k)) = if (elookup k l).isSome then 1 else 0 := by
  induction l with
  | nil => simp [elookup]
  | cons q rest ih =>
    obtain ⟨k', e⟩ := q
    have h1 : k' ∉ rest.map Prod.fst := (List.nodup_cons.mp h).1
    have h2 : NodupEKeys rest := (List.nodup_cons.mp h).2
    rw [List.countP_cons]
    by_cases hc : k' = k
    · subst hc
      have hrest : elookup k' rest = Option.none := by
        cases hre : elookup k' rest with
        | none => rfl
        | some e' => exact absurd (List.mem_map_of_mem Prod.fst (elookup_mem hre)) h1
      rw [ih h2, hrest]
      simp [elookup]
    · rw [ih h2]
      simp only [elookup, if_neg hc]
      simp [hc]

lemma key_of_mem_combineEntries {sem kw : List SearchResult} {p : RKey × CombEntry}
    (hp : p ∈ combineEntries sem kw) : keyOf p.2.result = p.1 := by
  rcases combineEntries_provenance hp with ⟨r, -, h1, h2, -⟩ | ⟨r, -, h1, h2, -⟩ <;>
    rw [h1, h2]

lemma countKey_combineResults {sem kw : List SearchResult} {sw kww : ℚ} {k : RKey}
    (hs : NodupKeys sem) (hk : NodupKeys kw) :
    countKey (combineResults sem kw sw kww) k =
      if (findByKey sem k).isSome || (findByKey kw k).isSome then 1 else 0 := by
  unfold countKey combineResults
  rw [(sortByScoreDesc_perm _).countP_eq, List.countP_map]
  have hcong : (combineEntries sem kw).countP
      ((fun r => decide (keyOf r = k)) ∘ (fun p => fuseEntry (normWeights sw kww).1 (normWeights sw kww).2 p.2)) =
      (combineEntries sem kw).countP (fun p => decide (p.1 = k)) := by
    apply List.countP_congr
    intro p hp
    simp only [Function.comp_apply, keyOf_fuseEntry, key_of_mem_combineEntries hp]
  rw [hcong, countP_key_of_nodup (nodupEKeys_combineEntries sem kw),
    elookup_combineEntries hs hk]
  cases findByKey sem k <;> cases findByKey kw k <;> simp

lemma findByKey_of_unique {l : List SearchResult} {k : RKey} {x : SearchResult}
    (hx : x ∈ l) (hkx : keyOf x = k) (hcount : countKey l k = 1) :
    findByKey l k = some x := by
  induction l with
  | nil => simp at hx
  | cons y ys ih =>
    unfold countKey at hcount
    rw [List.countP_cons] at hcount
    by_cases hy : keyOf y = k
    · have : findByKey (y :: ys) k = some y := by
        unfold findByKey
        simp [List.find?_cons, hy]
      rw [this]
      rcases List.mem_cons.mp hx with h | h
      · rw [h]
      · exfalso
        have hys : 0 < ys.countP (fun r => decide (keyOf r = k)) :=
          List.countP_pos_iff.mpr ⟨x, h, by simpa using hkx⟩
        have hone : (if (fun r => decide (keyOf r = k)) y = true then 1 else 0) = 1 := by
          simp [hy]
        rw [hone] at hcount
        omega
    · have hstep : findByKey (y :: ys) k = findByKey ys k := by
        unfold findByKey
        rw [List.find?_cons_of_neg]
        simpa using hy
      rw [hstep]
      rcases List.mem_cons.mp hx with h | h
      · exact absurd (h ▸ hkx) hy
      · refine ih h ?_
        unfold countKey
        simpa [hy] using hcount

lemma mget_fuseEntry_sem (w1 w2 : ℚ) (e : CombEntry) :
    mget (fuseEntry w1 w2 e).metadata "semantic_score" = MVal.num e.semantic_score := by
  simp [fuseEntry, updateMeta, scoreMetaAdds, mget, mlookup]

lemma mget_fuseEntry_kw (w1 w2 : ℚ) (e : CombEntry) :
    mget (fuseEntry w1 w2 e).metadata "keyword_score" = MVal.num e.keyword_score := by
  simp [fuseEntry, updateMeta, scoreMetaAdds, mget, mlookup]

lemma findByKey_combineResults {sem kw : List SearchResult} {sw kww : ℚ} {k : RKey}
    {e : CombEntry} (hs : NodupKeys sem) (hk : NodupKeys kw)
    (he : elookup k (combineEntries sem kw) = some e) :
    findByKey (combineResults sem kw sw kww) k =
      some (fuseEntry (normWeights sw kww).1 (normWeights sw kww).2 e) := by
  have hmem : (k, e) ∈ combineEntries sem kw := elookup_mem he
  have hfmem : fuseEntry (normWeights sw kww).1 (normWeights sw kww).2 e ∈
      combineResults sem kw sw kww := by
    unfold combineResults
    simp only [sortByScoreDesc] at *
    rw [mem_sortListBy]
    exact List.mem_map.mpr ⟨(k, e), hmem, rfl⟩
  have hkey : keyOf (fuseEntry (normWeights sw kww).1 (normWeights sw kww).2 e) = k := by
    rw [keyOf_fuseEntry]
    exact key_of_mem_combineEntries (p := (k, e)) hmem
  have hcount : countKey (combineResults sem kw sw kww) k = 1 := by
    rw [countKey_combineResults hs hk, elookup_combineEntries hs hk] at *
    revert he
    cases findByKey sem k <;> cases findByKey kw k <;> simp
  exact findByKey_of_unique hfmem hkey hcount

/-- C2: for nonnegative weights that are not both zero, `_combine_results`
uses the weights divided by their total, and these sum to 1; for both
weights zero it falls back to the fixed 0.7 semantic / 0.3 keyword split
instead of dividing by zero. -/
theorem fusion_weight_normalization (sw kw : ℚ) :
    (0 ≤ sw → 0 ≤ kw → ¬(sw = 0 ∧ kw = 0) →
      normWeights sw kw = (sw / (sw + kw), kw / (sw + kw)) ∧
      (normWeights sw kw).1 + (normWeights sw kw).2 = 1) ∧
    normWeights 0 0 = (7/10, 3/10) := by
  constructor
  · intro h1 h2 h3
    have hpos : 0 < sw + kw := by
      rcases lt_or_eq_of_le h1 with h | h
      · linarith
      · rcases lt_or_eq_of_le h2 with h' | h'
        · linarith
        · exact absurd ⟨h.symm, h'.symm⟩ h3
    have hne : sw + kw ≠ 0 := ne_of_gt hpos
    refine ⟨by simp [normWeights, hpos], ?_⟩
    simp only [normWeights, if_pos hpos]
    field_simp
  · norm_num [normWeights]

/-- Witness for C2 at the concrete weights 1 and 3. -/
theorem fusion_weight_normalization_witness :
    normWeights 1 3 = (1 / (1 + 3), 3 / (1 + 3)) ∧
    (normWeights 1 3).1 + (normWeights 1 3).2 = 1 :=
  (fusion_weight_normalization 1 3).1 (by norm_num) (by norm_num) (by norm_num)

/-- C4 counterexample: with the service initialized and BOTH retrieval
paths failing, `hybrid_search` returns a successful empty response — the
failure does not propagate to the caller as a fatal error, contrary to the
claim. -/
theorem c4_counterexample_both_paths_fail_ok :
    hybridSearchService true true (Except.error "semantic search failed")
      (Except.error "keyword search failed") c4req =
      Except.ok { query := "q", results := [], total_results := 0,
                  facets := Option.none, search_type := "hybrid" } := rfl

/-- C4 (amended): on an initialized service a failing retrieval path —
including both at once — is absorbed: the caller always receives a
successful response, a failed path contributing exactly what an empty path
would; only the not-initialized error propagates. -/
theorem path_failures_never_propagate (b : Bool) (e : String)
    (o1 o2 : Except String (List SearchResult)) (req : HybridSearchRequest) :
    hybridSearchService true b o1 o2 req =
      Except.ok (hybridPipeline (recoverPath o1) (if b then recoverPath o2 else []) b req) ∧
    hybridSearchService true b (Except.error e) o2 req =
      hybridSearchService true b (Except.ok []) o2 req ∧
    hybridSearchService true b o1 (Except.error e) req =
      hybridSearchService true b o1 (Except.ok []) req ∧
    hybridSearchService false b o1 o2 req =
      Except.error "Hybrid search service not initialized" :=
  ⟨rfl, rfl, rfl, rfl⟩

/-- C7 counterexample: a request that is invalid in all three claimed ways
at once (empty query, limit 0, negative semantic weight) is not rejected:
`hybrid_search` processes it and returns a successful response. -/
theorem c7_counterexample_invalid_request_processed :
    hybridSearchService true true (Except.ok []) (Except.ok []) invalidReq =
      Except.ok { query := "", results := [], total_results := 0,
                  facets := Option.none, search_type := "hybrid" } := rfl

/-- C7 (amended): `hybrid_search` performs no request validation — even a
request with an empty query, a negative weight or a non-positive limit is
processed through both retrieval paths and answered successfully; the only
rejection is the not-initialized error. -/
theorem no_request_validation (b : Bool) (o1 o2 : Except String (List SearchResult))
    (req : HybridSearchRequest)
    (hbad : req.query = "" ∨ req.semantic_weight < 0 ∨ req.limit = 0) :
    hybridSearchService true b o1 o2 req =
      Except.ok (hybridPipeline (recoverPath o1) (if b then recoverPath o2 else []) b req) :=
  rfl

/-- Witness for C7's amended theorem at the concrete invalid request. -/
theorem no_request_validation_witness :
    hybridSearchService true true (Except.ok []) (Except.ok []) invalidReq =
      Except.ok (hybridPipeline (recoverPath (Except.ok []))
        (if true then recoverPath (Except.ok []) else []) true invalidReq) :=
  no_request_validation true (Except.ok []) (Except.ok []) invalidReq (Or.inl rfl)

/-- C1 counterexample: with nonnegative weights 0.7/0.3, the
schema-unconstrained threshold -1 admits a dense result with negative
cosine score -1/2, and the fused response carries the combined score
-7/20 < 0 — the claimed bound `0 ≤ combined_score` fails. -/
theorem c1_counterexample_negative_combined_score :
    0 ≤ c1req.semantic_weight ∧ 0 ≤ c1req.keyword_weight ∧
    (hybridSearchModel c1docs 0 true (Except.ok []) c1req).results.map (fun r => r.score) =
      [-7/20] ∧ ¬(0 ≤ (-7/20 : ℚ)) := by
  refine ⟨by norm_num [c1req], by norm_num [c1req], ?_, by norm_num⟩
  norm_num [hybridSearchModel, hybridPipeline, searchServiceSearch, injectPT, combineResults,
    combineEntries, addSemantic, addKeyword, normWeights, fuseEntry, combineScore, normSemScore,
    normKwScore, scoreMetaAdds, updateMeta, sortByScoreDesc, sortListBy, insertBy, applyFilters,
    metaFilterStep, sortResults, keyOf, recoverPath, c1docs, c1req, min_def]

/-- C1 (amended): on an initialized service, for nonnegative weights and a
nonnegative threshold (so that every dense score entering fusion is
nonnegative), every returned result's combined score lies in [0, 1]. -/
theorem hybrid_combined_score_bounds (docs : List SearchResult) (pt : ℚ) (b : Bool)
    (kwO : Except String (List SearchResult)) (req : HybridSearchRequest) (r : SearchResult)
    (hr : r ∈ (hybridSearchModel docs pt b kwO req).results)
    (hsw : 0 ≤ req.semantic_weight) (hkw : 0 ≤ req.keyword_weight)
    (ht : 0 ≤ req.threshold) :
    0 ≤ r.score ∧ r.score ≤ 1 := by
  obtain ⟨p, hp, hre⟩ := mem_results_model hr
  obtain ⟨hw1, hw2, hsum⟩ := normWeights_bounds hsw hkw
  have hsem : 0 ≤ p.2.semantic_score := by
    rcases combineEntries_provenance hp with ⟨rs, hrs, -, -, hscore⟩ | ⟨rk, hrk, -, -, hzero⟩
    · rw [hscore]
      exact le_trans ht (mem_searchServiceSearch hrs)
    · rw [hzero]
  rw [hre, fuseEntry_score]
  exact combineScore_bounds hw1 hw2 hsum hsem

/-- Witness for C1's amended theorem: the concrete run with dense score
1/2, threshold 0 and weights 0.7/0.3 returns a result whose combined score
lies in [0, 1]. -/
theorem hybrid_combined_score_bounds_witness :
    0 ≤ c1wres.score ∧ c1wres.score ≤ 1 :=
  hybrid_combined_score_bounds c1wdocs 0 true (Except.ok []) c1wreq c1wres
    (by norm_num [c1wres, hybridSearchModel, hybridPipeline, searchServiceSearch, injectPT,
      combineResults, combineEntries, addSemantic, addKeyword, normWeights, fuseEntry,
      combineScore, normSemScore, normKwScore, scoreMetaAdds, updateMeta, sortByScoreDesc,
      sortListBy, insertBy, applyFilters, metaFilterStep, sortResults, keyOf, recoverPath,
      c1wdocs, c1wreq, min_def])
    (by norm_num [c1wreq]) (by norm_num [c1wreq]) (by norm_num [c1wreq])

/-- C3: under the engine's identity invariant (distinct reconciliation
keys within each modality's result list), every key appears at most once
in the fused output: a chunk found by both modalities appears exactly once
with its raw dense score and its raw BM25 score recorded as the component
scores, a chunk found by one modality is still included with component
score 0 for the missing modality, and a chunk found by neither is
absent. -/
theorem fusion_identity_reconciliation (sem kw : List SearchResult) (sw kww : ℚ) (k : RKey)
    (hs : NodupKeys sem) (hk : NodupKeys kw) :
    countKey (combineResults sem kw sw kww) k =
      (if (findByKey sem k).isSome || (findByKey kw k).isSome then 1 else 0) ∧
    (findByKey (combineResults sem kw sw kww) k).map
        (fun r => (mget r.metadata "semantic_score", mget r.metadata "keyword_score")) =
      (match findByKey sem k, findByKey kw k with
       | some rs, some rk => some (MVal.num rs.score, MVal.num rk.score)
       | some rs, Option.none => some (MVal.num rs.score, MVal.num 0)
       | Option.none, some rk => some (MVal.num 0, MVal.num rk.score)
       | Option.none, Option.none => Option.none) := by
  refine ⟨countKey_combineResults hs hk, ?_⟩
  have hel := @elookup_combineEntries sem kw k hs hk
  cases hsem : findByKey sem k with
  | some rs =>
    cases hkw : findByKey kw k with
    | some rk =>
      rw [hsem, hkw] at hel
      rw [findByKey_combineResults hs hk hel]
      simp [mget_fuseEntry_sem, mget_fuseEntry_kw]
    | none =>
      rw [hsem, hkw] at hel
      rw [findByKey_combineResults hs hk hel]
      simp [mget_fuseEntry_sem, mget_fuseEntry_kw]
  | none =>
    cases hkw : findByKey kw k with
    | some rk =>
      rw [hsem, hkw] at hel
      rw [findByKey_combineResults hs hk hel]
      simp [mget_fuseEntry_sem, mget_fuseEntry_kw]
    | none =>
      have hcnt : countKey (combineResults sem kw sw kww) k = 0 := by
        rw [countKey_combineResults hs hk, hsem, hkw]
        simp
      have hnone : findByKey (combineResults sem kw sw kww) k = Option.none := by
        apply findByKey_eq_none
        intro r hr he
        have hpos : 0 < countKey (combineResults sem kw sw kww) k :=
          List.countP_pos_iff.mpr ⟨r, hr, by simpa using he⟩
        omega
      rw [hnone]
      simp

/-- Witness for C3 at a concrete chunk present in both modalities. -/
theorem fusion_identity_reconciliation_witness :
    countKey (combineResults c3sem c3kw 1 1) (Sum.inl "c1") =
      (if (findByKey c3sem (Sum.inl "c1")).isSome ||
          (findByKey c3kw (Sum.inl "c1")).isSome then 1 else 0) ∧
    (findByKey (combineResults c3sem c3kw 1 1) (Sum.inl "c1")).map
        (fun r => (mget r.metadata "semantic_score", mget r.metadata "keyword_score")) =
      (match findByKey c3sem (Sum.inl "c1"), findByKey c3kw (Sum.inl "c1") with
       | some rs, some rk => some (MVal.num rs.score, MVal.num rk.score)
       | some rs, Option.none => some (MVal.num rs.score, MVal.num 0)
       | Option.none, some rk => some (MVal.num 0, MVal.num rk.score)
       | Option.none, Option.none => Option.none) :=
  fusion_identity_reconciliation c3sem c3kw 1 1 (Sum.inl "c1")
    (by simp [NodupKeys, c3sem]) (by simp [NodupKeys, c3kw])

/-- C10: every result produced by the lexical path carries a strictly
positive BM25 score (zero-scored chunks are filtered out before results
are built), and every fused entry's key originates in the dense or the
lexical result set — so a chunk with BM25 score zero reaches the fused
output only through the dense path. -/
theorem lexical_positive_scores (b : Bool) (scored : List (ℚ × SearchResult)) (L : Nat)
    (r : SearchResult) (sem kw : List SearchResult) (p : RKey × CombEntry)
    (hr : r ∈ getKeywordResults b scored L) (hp : p ∈ combineEntries sem kw) :
    0 < r.score ∧ ((findByKey sem p.1).isSome ∨ (findByKey kw p.1).isSome) := by
  constructor
  · unfold getKeywordResults at hr
    split_ifs at hr with hb
    · have h1 := List.mem_of_mem_take hr
      simp only [sortByScoreDesc] at h1
      rw [mem_sortListBy] at h1
      obtain ⟨q, hq, hqr⟩ := List.mem_map.mp h1
      have hpos := (List.mem_filter.mp hq).2
      rw [← hqr]
      exact of_decide_eq_true hpos
    · simp at hr
  · rcases combineEntries_provenance hp with ⟨rr, hrr, h1, -, -⟩ | ⟨rr, hrr, h1, -, -⟩
    · left
      unfold findByKey
      rw [List.find?_isSome]
      exact ⟨rr, hrr, by simpa using h1.symm⟩
    · right
      unfold findByKey
      rw [List.find?_isSome]
      exact ⟨rr, hrr, by simpa using h1.symm⟩

/-- Witness for C10 at a concrete lexical result and fused entry. -/
theorem lexical_positive_scores_witness :
    0 < c10res.score ∧
    ((findByKey [] (keyOf c10res)).isSome ∨ (findByKey [c10res] (keyOf c10res)).isSome) :=
  lexical_positive_scores true c10scored 1 c10res [] [c10res]
    (keyOf c10res, ⟨c10res, 0, 5⟩)
    (by norm_num [getKeywordResults, sortByScoreDesc, sortListBy, insertBy, c10scored, c10res])
    (by simp [combineEntries, addKeyword, c10res])

lemma clookup_bump {κ : Type} [DecidableEq κ] (m : List (κ × Nat)) (k k' : κ) :
    clookup k (bump m k') =
      if k' = k then some ((clookup k m).getD 0 + 1) else clookup k m := by
  induction m with
  | nil =>
    by_cases h : k' = k <;> simp [bump, clookup, h]
  | cons q rest ih =>
    obtain ⟨k2, c⟩ := q
    simp only [bump]
    by_cases h : k2 = k'
    · rw [if_pos h]
      by_cases h2 : k2 = k
      · have hk : k' = k := h.symm.trans h2
        simp [clookup, h2, hk]
      · have hk : ¬ k' = k := fun hc => h2 (h.trans hc)
        simp [clookup, h2, hk]
    · rw [if_neg h]
      by_cases h2 : k2 = k
      · have hk : ¬ k' = k := fun hc => h (h2.trans hc.symm)
        simp [clookup, h2, hk]
      · simp [clookup, h2, ih]

lemma clookup_foldl_bump {κ : Type} [DecidableEq κ] (l : List κ) (m : List (κ × Nat))
    (k : κ) :
    clookup k (l.foldl bump m) =
      (match clookup k m with
       | some c => some (c + l.countP (fun x => decide (x = k)))
       | Option.none =>
         if l.countP (fun x => decide (x = k)) = 0 then Option.none
         else some (l.countP (fun x => decide (x = k)))) := by
  induction l generalizing m with
  | nil => cases hm : clookup k m <;> simp [hm]
  | cons a t ih =>
    simp only [List.foldl_cons]
    rw [ih, clookup_bump]
    by_cases h : a = k
    · rw [if_pos h]
      cases hm : clookup k m with
      | some c =>
        simp only [hm, Option.getD_some, List.countP_cons, h]
        simp [Option.some.injEq]
        omega
      | none =>
        simp only [hm, Option.getD_none, List.countP_cons, h]
        simp [Option.some.injEq]
        omega
    · rw [if_neg h]
      cases hm : clookup k m with
      | some c => simp [hm, List.countP_cons, h]
      | none => simp [hm, List.countP_cons, h]

lemma facetFold_fst (rs : List SearchResult)
    (acc : List (String × Nat) × List (String × Nat) × List (MVal × Nat)) :
    (rs.foldl facetStep acc).1 =
      rs.foldl (fun m r => if r.filename = "" then m else bump m (extOf r.filename)) acc.1 := by
  induction rs generalizing acc with
  | nil => rfl
  | cons x t ih =>
    simp only [List.foldl_cons]
    rw [ih]
    rfl

lemma foldl_condBump (rs : List SearchResult) (m : List (String × Nat)) :
    rs.foldl (fun m r => if r.filename = "" then m else bump m (extOf r.filename)) m =
      (rs.filterMap (fun r =>
        if r.filename = "" then Option.none else some (extOf r.filename))).foldl bump m := by
  induction rs generalizing m with
  | nil => rfl
  | cons x t ih =>
    simp only [List.foldl_cons, List.filterMap_cons]
    by_cases h : x.filename = ""
    · simp [h, ih]
    · simp [h, ih]

lemma countP_ext_filterMap (rs : List SearchResult) (k : String) :
    (rs.filterMap (fun r =>
        if r.filename = "" then Option.none else some (extOf r.filename))).countP
      (fun x => decide (x = k)) =
      rs.countP (fun r => decide (r.filename ≠ "" ∧ extOf r.filename = k)) := by
  induction rs with
  | nil => rfl
  | cons x t ih =>
    simp only [List.filterMap_cons, List.countP_cons]
    by_cases h : x.filename = ""
    · simp [h, ih, List.countP_cons]
    · by_cases h2 : extOf x.filename = k
      · simp [h, h2, ih, List.countP_cons]
      · simp [h, h2, ih, List.countP_cons]

/-- C9: facets are computed over the filtered result set (the pre-limit,
post-filter set), and the file_types facet maps each lowercase extension
key (the last dot-separated component of the filename, lowercased, for
results with a nonempty filename) to exactly the number of results in the
set carrying that extension, with absent extensions absent from the
map. -/
theorem facets_over_filtered_set (sem kw : List SearchResult) (b : Bool)
    (req : HybridSearchRequest) (rs : List SearchResult) (k : String) :
    (hybridPipeline sem kw b req).facets =
      (if req.facets then
        some (generateFacets (applyFilters
          (combineResults sem kw req.semantic_weight req.keyword_weight) req))
       else Option.none) ∧
    clookup k (generateFacets rs).file_types =
      (if rs.countP (fun r => decide (r.filename ≠ "" ∧ extOf r.filename = k)) = 0
       then Option.none
       else some (rs.countP (fun r => decide (r.filename ≠ "" ∧ extOf r.filename = k)))) := by
  constructor
  · rfl
  · have h1 : (generateFacets rs).file_types =
        rs.foldl (fun m r => if r.filename = "" then m else bump m (extOf r.filename)) [] := by
      unfold generateFacets
      exact facetFold_fst rs ([], [], [])
    rw [h1, foldl_condBump, clookup_foldl_bump, countP_ext_filterMap]
    simp [clookup]

lemma keepAndCount_fst (fid : String) (l : List Doc) :
    (keepAndCount fid l).1 = l.filter (fun d => decide (d.file_id ≠ fid)) := by
  induction l with
  | nil => rfl
  | cons d t ih =>
    simp only [keepAndCount, List.filter_cons]
    by_cases h : d.file_id ≠ fid
    · simp [h, ih]
    · simp [h, ih]

lemma keepAndCount_snd_pos (fid : String) (l : List Doc) :
    (0 < (keepAndCount fid l).2) ↔ l.any (fun d => decide (d.file_id = fid)) = true := by
  induction l with
  | nil => simp [keepAndCount]
  | cons d t ih =>
    simp only [keepAndCount, List.any_cons]
    by_cases h : d.file_id ≠ fid
    · simp [h, ih]
    · push_neg at h
      simp [h]

lemma zip_filter_fst {A : List Doc} {B : List String} (hlen : A.length = B.length)
    (fid : String) :
    ((A.zip B).filter (fun p => decide (p.1.file_id ≠ fid))).map Prod.fst =
      A.filter (fun d => decide (d.file_id ≠ fid)) := by
  induction A generalizing B with
  | nil => simp
  | cons a t ih =>
    cases B with
    | nil => simp at hlen
    | cons b tb =>
      simp only [List.zip_cons_cons, List.filter_cons]
      have hl : t.length = tb.length := by simpa using hlen
      have hih := ih hl
      simp only [decide_not] at hih
      by_cases h : a.file_id ≠ fid
      · simp [h, hih]
      · simp [h, hih]

lemma isEmpty_map {α β : Type} (f : α → β) (l : List α) : (l.map f).isEmpty = l.isEmpty := by
  cases l <;> rfl

/-- C8: removal by file_id returns false exactly when no stored document
carries that file_id; when it returns true the surviving documents are
exactly those of other files and the dense vector store is rebuilt to hold
exactly the survivors' embeddings; likewise BM25 removal keeps exactly the
other files' rows and rebuilds the index over the surviving texts
(dropping it when none survive). -/
theorem index_remove_and_rebuild (embed : String → List ℚ) (s : SearchServiceState)
    (b : Bm25State) (fid : String)
    (hb : b.bm25_index.isSome = true)
    (hlen : b.document_metadata.length = b.documents_for_bm25.length) :
    ((deleteFileDocuments embed s fid).2 =
        s.documents.any (fun d => decide (d.file_id = fid))) ∧
    ((deleteFileDocuments embed s fid).2 = true →
      (deleteFileDocuments embed s fid).1.documents =
        s.documents.filter (fun d => decide (d.file_id ≠ fid)) ∧
      (deleteFileDocuments embed s fid).1.index =
        (s.documents.filter (fun d => decide (d.file_id ≠ fid))).map
          (fun d => embed d.content)) ∧
    ((removeFromBm25Index b fid).document_metadata =
        b.document_metadata.filter (fun d => decide (d.file_id ≠ fid)) ∧
      (removeFromBm25Index b fid).bm25_index =
        (if (removeFromBm25Index b fid).documents_for_bm25.isEmpty then Option.none
         else some ((removeFromBm25Index b fid).documents_for_bm25.map tokenizeText))) := by
  refine ⟨?_, ?_, ?_⟩
  · unfold deleteFileDocuments
    by_cases h : 0 < (keepAndCount fid s.documents).2
    · simp only [h, if_true]
      exact ((keepAndCount_snd_pos fid s.documents).mp h).symm
    · simp only [h, if_false]
      have h2 := fun hc => h ((keepAndCount_snd_pos fid s.documents).mpr hc)
      symm
      exact Bool.not_eq_true _ ▸ h2
  · intro htrue
    unfold deleteFileDocuments at htrue ⊢
    by_cases h : 0 < (keepAndCount fid s.documents).2
    · simp only [h, if_true]
      constructor
      · exact keepAndCount_fst fid s.documents
      · unfold rebuildIndex
        simp [keepAndCount_fst fid s.documents]
    · simp only [h, if_false] at htrue
      exact absurd htrue (by simp)
  · cases hbm : b.bm25_index with
    | none =>
      rw [hbm] at hb
      simp at hb
    | some idx =>
      unfold removeFromBm25Index
      rw [hbm]
      refine ⟨zip_filter_fst hlen fid, ?_⟩
      show _ = (if (((b.document_metadata.zip b.documents_for_bm25).filter
          (fun p => decide (p.1.file_id ≠ fid))).map Prod.snd).isEmpty then _ else _)
      rw [isEmpty_map]

/-- Witness for C8 at a concrete two-file state: removing file f1 succeeds,
keeps only file f2's rows in both indexes. -/
theorem index_remove_and_rebuild_witness :
    (deleteFileDocuments wembed wstate "f1").2 =
      wstate.documents.any (fun d => decide (d.file_id = "f1")) ∧
    (deleteFileDocuments wembed wstate "f1").1.documents =
      wstate.documents.filter (fun d => decide (d.file_id ≠ "f1")) ∧
    (removeFromBm25Index wbm "f1").document_metadata =
      wbm.document_metadata.filter (fun d => decide (d.file_id ≠ "f1")) := by
  have h := index_remove_and_rebuild wembed wstate wbm "f1" rfl rfl
  exact ⟨h.1, (h.2.1 (by decide)).1, h.2.2.1⟩

lemma isPref_nil (l : List SearchResult) : IsPref [] l := ⟨l, rfl⟩

lemma isPref_cons {l1 l2 : List SearchResult} (a : SearchResult) (h : IsPref l1 l2) :
    IsPref (a :: l1) (a :: l2) := by
  obtain ⟨t, rfl⟩ := h
  exact ⟨t, rfl⟩

lemma isPref_take {l1 l2 : List SearchResult} (n : Nat) (h : IsPref l1 l2) :
    IsPref (l1.take n) (l2.take n) := by
  obtain ⟨t, rfl⟩ := h
  exact ⟨t.take (n - l1.length), (List.take_append_eq_append_take).symm⟩

lemma filter_ge_pref_of_sorted {l : List SearchResult} {t1 t2 : ℚ}
    (hs : ScoresSortedDesc l) (h12 : t1 ≤ t2) :
    IsPref (l.filter (fun r => decide (t2 ≤ r.score)))
      (l.filter (fun r => decide (t1 ≤ r.score))) := by
  induction l with
  | nil => exact isPref_nil _
  | cons x xs ih =>
    have hs' : ScoresSortedDesc xs := (List.pairwise_cons.mp hs).2
    have hall : ∀ y ∈ xs, y.score ≤ x.score := (List.pairwise_cons.mp hs).1
    by_cases h : t2 ≤ x.score
    · have h1 : t1 ≤ x.score := le_trans h12 h
      simp only [List.filter_cons, decide_eq_true h, decide_eq_true h1, if_true]
      exact isPref_cons x (ih hs')
    · have hnil : (x :: xs).filter (fun r => decide (t2 ≤ r.score)) = [] := by
        rw [List.filter_eq_nil_iff]
        intro y hy
        simp only [decide_eq_true_eq]
        rcases List.mem_cons.mp hy with hyx | hyx
        · rw [hyx]; exact h
        · intro hc
          exact h (le_trans hc (hall y hyx))
      rw [hnil]
      exact isPref_nil _

lemma injectPT_pref {pt : ℚ} {l1 l2 : List SearchResult} (h : IsPref l1 l2) :
    IsPref (injectPT pt l1) (injectPT pt l2) := by
  obtain ⟨t, rfl⟩ := h
  cases l1 with
  | nil => exact isPref_nil _
  | cons x xs => exact ⟨t, by simp [injectPT]⟩

lemma searchServiceSearch_pref {docs : List SearchResult} {L : Nat} {pt t1 t2 : ℚ}
    (hs : ScoresSortedDesc docs) (h12 : t1 ≤ t2) :
    IsPref (searchServiceSearch docs L t2 pt) (searchServiceSearch docs L t1 pt) := by
  unfold searchServiceSearch
  apply injectPT_pref
  apply isPref_take
  exact filter_ge_pref_of_sorted (hs.sublist (List.take_sublist _ _)) h12

lemma findByKey_pref_some {l1 l2 : List SearchResult} {k : RKey} {r : SearchResult}
    (h : IsPref l1 l2) (hf : findByKey l1 k = some r) : findByKey l2 k = some r := by
  obtain ⟨t, rfl⟩ := h
  unfold findByKey at hf ⊢
  rw [List.find?_append, hf]
  rfl

lemma keyOf_injectPT (pt : ℚ) (l : List SearchResult) :
    (injectPT pt l).map keyOf = l.map keyOf := by
  cases l with
  | nil => rfl
  | cons x xs =>
    simp only [injectPT, List.map_cons]
    rfl

lemma nodupKeys_searchServiceSearch {docs : List SearchResult} {L : Nat} {t pt : ℚ}
    (h : NodupKeys docs) : NodupKeys (searchServiceSearch docs L t pt) := by
  unfold NodupKeys searchServiceSearch at *
  rw [keyOf_injectPT]
  have hsub : (((docs.take (min (L * 2) docs.length)).filter
      (fun r => decide (t ≤ r.score))).take L).Sublist docs :=
    ((List.take_sublist _ _).trans (List.filter_sublist _)).trans (List.take_sublist _ _)
  exact h.sublist (hsub.map keyOf)

lemma searchServiceSearch_origin {r : SearchResult} {docs : List SearchResult} {L : Nat}
    {t pt : ℚ} (hr : r ∈ searchServiceSearch docs L t pt) :
    ∃ x ∈ docs, r.score = x.score ∧ r.filename = x.filename ∧
      r.content_type = x.content_type ∧ keyOf r = keyOf x ∧
      ∀ k, k ≠ "processing_time" → mget r.metadata k = mget x.metadata k := by
  unfold searchServiceSearch at hr
  obtain ⟨x, hx, hfacts⟩ := injectPT_members hr
  exact ⟨x, List.mem_of_mem_take (List.mem_of_mem_filter (List.mem_of_mem_take hx)), hfacts⟩

lemma mem_elookup_of_nodup {l : List (RKey × CombEntry)} {k : RKey} {e : CombEntry}
    (h : NodupEKeys l) (hm : (k, e) ∈ l) : elookup k l = some e := by
  induction l with
  | nil => simp at hm
  | cons q rest ih =>
    obtain ⟨k', e'⟩ := q
    have h1 : k' ∉ rest.map Prod.fst := (List.nodup_cons.mp h).1
    have h2 : NodupEKeys rest := (List.nodup_cons.mp h).2
    rcases List.mem_cons.mp hm with hq | hq
    · obtain ⟨hk, he⟩ := Prod.mk.injEq .. ▸ hq.symm
      subst hk
      simp [elookup, he.symm]
    · have hne : k' ≠ k := by
        intro he
        subst he
        exact h1 (List.mem_map_of_mem Prod.fst hq)
      simp only [elookup, if_neg hne]
      exact ih h2 hq

lemma countP_entries_le {e1 e2 : List (RKey × CombEntry)}
    {p1 p2 : RKey × CombEntry → Bool}
    (h1 : NodupEKeys e1) (h2 : NodupEKeys e2)
    (himp : ∀ k eb, elookup k e2 = some eb → p2 (k, eb) = true →
      ∃ ea, elookup k e1 = some ea ∧ p1 (k, ea) = true) :
    e2.countP p2 ≤ e1.countP p1 := by
  have hform : ∀ (l : List (RKey × CombEntry)) (p : RKey × CombEntry → Bool),
      l.countP p = ((l.filter p).map Prod.fst).length := by
    intro l p
    rw [List.countP_eq_length_filter, List.length_map]
  rw [hform e1 p1, hform e2 p2]
  have hnd : ∀ (l : List (RKey × CombEntry)) (p : RKey × CombEntry → Bool),
      NodupEKeys l → ((l.filter p).map Prod.fst).Nodup := by
    intro l p hl
    exact hl.sublist ((List.filter_sublist l).map Prod.fst)
  have hsubset : ((e2.filter p2).map Prod.fst) ⊆ ((e1.filter p1).map Prod.fst) := by
    intro k hk
    obtain ⟨q, hq, hqk⟩ := List.mem_map.mp hk
    obtain ⟨k', eb⟩ := q
    have hqk' : k' = k := hqk
    subst hqk'
    have hel : elookup k' e2 = some eb := mem_elookup_of_nodup h2 (List.mem_filter.mp hq).1
    obtain ⟨ea, hea, heap⟩ := himp k' eb hel (List.mem_filter.mp hq).2
    exact List.mem_map.mpr ⟨(k', ea), List.mem_filter.mpr ⟨elookup_mem hea, heap⟩, rfl⟩
  have hfin1 : ((e2.filter p2).map Prod.fst).toFinset ⊆
      ((e1.filter p1).map Prod.fst).toFinset := by
    intro x hx
    rw [List.mem_toFinset] at hx ⊢
    exact hsubset hx
  calc ((e2.filter p2).map Prod.fst).length
      = ((e2.filter p2).map Prod.fst).toFinset.card :=
        (List.toFinset_card_of_nodup (hnd e2 p2 h2)).symm
    _ ≤ ((e1.filter p1).map Prod.fst).toFinset.card := Finset.card_le_card hfin1
    _ = ((e1.filter p1).map Prod.fst).length := List.toFinset_card_of_nodup (hnd e1 p1 h1)

lemma total_results_model (docs : List SearchResult) (pt : ℚ) (b : Bool)
    (kwO : Except String (List SearchResult)) (req : HybridSearchRequest) :
    (hybridSearchModel docs pt b kwO req).total_results =
      (combineEntries (searchServiceSearch docs (req.limit * 2) req.threshold pt)
        (if b then recoverPath kwO else [])).countP
        (fun p => fullFilter req (fuseEntry
          (normWeights req.semantic_weight req.keyword_weight).1
          (normWeights req.semantic_weight req.keyword_weight).2 p.2)) := by
  unfold hybridSearchModel hybridPipeline
  simp only
  rw [length_applyFilters]
  unfold combineResults
  simp only [sortByScoreDesc]
  rw [(sortListBy_perm _ _).countP_eq, List.countP_map]
  rfl

lemma fuseEntry_filename (w1 w2 : ℚ) (e : CombEntry) :
    (fuseEntry w1 w2 e).filename = e.result.filename := rfl

lemma fuseEntry_content_type (w1 w2 : ℚ) (e : CombEntry) :
    (fuseEntry w1 w2 e).content_type = e.result.content_type := rfl

lemma fuseEntry_meta_nonempty (w1 w2 : ℚ) (e : CombEntry) :
    (fuseEntry w1 w2 e).metadata.isEmpty = false := rfl

lemma mget_fuseEntry_of_nonreserved {w1 w2 : ℚ} {e : CombEntry} {k : String}
    (hk : ¬ k ∈ reservedKeys) :
    mget (fuseEntry w1 w2 e).metadata k = mget e.result.metadata k := by
  apply mget_updateMeta_of_notin
  intro kv hkv
  intro he
  apply hk
  unfold scoreMetaAdds at hkv
  rw [← he]
  simp only [List.mem_cons, List.not_mem_nil, or_false] at hkv
  rcases hkv with h | h | h | h <;> (rw [h]; simp [reservedKeys])

lemma all_congr' {α : Type} {l : List α} {p q : α → Bool} (h : ∀ x ∈ l, p x = q x) :
    l.all p = l.all q := by
  induction l with
  | nil => rfl
  | cons x xs ih =>
    simp only [List.all_cons]
    rw [h x (List.mem_cons_self _ _), ih (fun y hy => h y (List.mem_cons_of_mem _ hy))]

lemma findByKey_key {l : List SearchResult} {k : RKey} {r : SearchResult}
    (h : findByKey l k = some r) : keyOf r = k := by
  unfold findByKey at h
  have hp := List.find?_some h
  simpa using hp

lemma findByKey_mem {l : List SearchResult} {k : RKey} {r : SearchResult}
    (h : findByKey l k = some r) : r ∈ l := by
  unfold findByKey at h
  exact List.mem_of_find?_eq_some h

lemma monotone_core (docs kw : List SearchResult) (pt : ℚ) (req : HybridSearchRequest)
    (t1 t2 w1 w2 : ℚ)
    (hsorted : ScoresSortedDesc docs) (hndocs : NodupKeys docs) (hnkw : NodupKeys kw)
    (hcons : ∀ d ∈ docs, ∀ rk ∈ kw, keyOf d = keyOf rk →
      d.filename = rk.filename ∧ d.content_type = rk.content_type ∧ d.metadata = rk.metadata)
    (hw1 : 0 ≤ w1) (hw2 : 0 ≤ w2) (hsum : w1 + w2 = 1)
    (hmf : ∀ kv ∈ req.metadata_filters, ¬ kv.1 ∈ reservedKeys)
    (h12 : t1 ≤ t2) :
    (combineEntries (searchServiceSearch docs (req.limit * 2) t2 pt) kw).countP
      (fun p => baseFilter req (fuseEntry w1 w2 p.2) &&
        decide (t2 ≤ (fuseEntry w1 w2 p.2).score)) ≤
    (combineEntries (searchServiceSearch docs (req.limit * 2) t1 pt) kw).countP
      (fun p => baseFilter req (fuseEntry w1 w2 p.2) &&
        decide (t1 ≤ (fuseEntry w1 w2 p.2).score)) := by
  have hpref : IsPref (searchServiceSearch docs (req.limit * 2) t2 pt)
      (searchServiceSearch docs (req.limit * 2) t1 pt) :=
    searchServiceSearch_pref hsorted h12
  have hn1 : NodupKeys (searchServiceSearch docs (req.limit * 2) t1 pt) :=
    nodupKeys_searchServiceSearch hndocs
  have hn2 : NodupKeys (searchServiceSearch docs (req.limit * 2) t2 pt) :=
    nodupKeys_searchServiceSearch hndocs
  apply countP_entries_le (nodupEKeys_combineEntries _ kw) (nodupEKeys_combineEntries _ kw)
  intro k eb hel2 hp2
  rw [elookup_combineEntries hn2 hnkw] at hel2
  have hchar1 := @elookup_combineEntries
    (searchServiceSearch docs (req.limit * 2) t1 pt) kw k hn1 hnkw
  cases hs2 : findByKey (searchServiceSearch docs (req.limit * 2) t2 pt) k with
  | some rs =>
    rw [hs2] at hel2
    have hs1 : findByKey (searchServiceSearch docs (req.limit * 2) t1 pt) k = some rs :=
      findByKey_pref_some hpref hs2
    rw [hs1] at hchar1
    cases hk2 : findByKey kw k with
    | some rk =>
      rw [hk2] at hel2 hchar1
      have heb : (⟨rs, rs.score, rk.score⟩ : CombEntry) = eb := by injection hel2
      subst heb
      refine ⟨_, hchar1, ?_⟩
      rw [Bool.and_eq_true] at hp2
      obtain ⟨hb2, ht2⟩ := hp2
      rw [Bool.and_eq_true]
      exact ⟨hb2, decide_eq_true (le_trans h12 (of_decide_eq_true ht2))⟩
    | none =>
      rw [hk2] at hel2 hchar1
      have heb : (⟨rs, rs.score, 0⟩ : CombEntry) = eb := by injection hel2
      subst heb
      refine ⟨_, hchar1, ?_⟩
      rw [Bool.and_eq_true] at hp2
      obtain ⟨hb2, ht2⟩ := hp2
      rw [Bool.and_eq_true]
      exact ⟨hb2, decide_eq_true (le_trans h12 (of_decide_eq_true ht2))⟩
  | none =>
    rw [hs2] at hel2
    cases hk2 : findByKey kw k with
    | none =>
      rw [hk2] at hel2
      exact absurd hel2 (by simp)
    | some rk =>
      rw [hk2] at hel2 hchar1
      have heb : (⟨rk, 0, rk.score⟩ : CombEntry) = eb := by injection hel2
      subst heb
      rw [Bool.and_eq_true] at hp2
      obtain ⟨hb2, ht2cond⟩ := hp2
      have ht2' : t2 ≤ combineScore w1 w2 ⟨rk, 0, rk.score⟩ := by
        have h := of_decide_eq_true ht2cond
        rwa [fuseEntry_score] at h
      have hcs2 : combineScore w1 w2 ⟨rk, 0, rk.score⟩ = w2 * normKwScore rk.score := by
        unfold combineScore normSemScore
        norm_num
      cases hs1 : findByKey (searchServiceSearch docs (req.limit * 2) t1 pt) k with
      | none =>
        rw [hs1] at hchar1
        refine ⟨_, hchar1, ?_⟩
        rw [Bool.and_eq_true]
        exact ⟨hb2, decide_eq_true (le_trans h12 (of_decide_eq_true ht2cond))⟩
      | some rs =>
        rw [hs1] at hchar1
        refine ⟨_, hchar1, ?_⟩
        have hrs_mem : rs ∈ searchServiceSearch docs (req.limit * 2) t1 pt :=
          findByKey_mem hs1
        have hrs_key : keyOf rs = k := findByKey_key hs1
        have hrk_key : keyOf rk = k := findByKey_key hk2
        have hrk_mem : rk ∈ kw := findByKey_mem hk2
        have hrs_score : t1 ≤ rs.score := mem_searchServiceSearch hrs_mem
        obtain ⟨d, hd_mem, hd_score, hd_fn, hd_ct, hd_key, hd_meta⟩ :=
          searchServiceSearch_origin hrs_mem
        have hdk : keyOf d = keyOf rk := by rw [← hd_key, hrs_key, hrk_key]
        obtain ⟨hfn, hct, hmeta⟩ := hcons d hd_mem rk hrk_mem hdk
        have hcs1 : combineScore w1 w2 ⟨rs, rs.score, rk.score⟩ =
            w1 * normSemScore rs.score + w2 * normKwScore rk.score := rfl
        have hnk0 : 0 ≤ w2 * normKwScore rk.score :=
          mul_nonneg hw2 (normKwScore_bounds rk.score).1
        have hthr : t1 ≤ combineScore w1 w2 ⟨rs, rs.score, rk.score⟩ := by
          rw [hcs2] at ht2'
          rw [hcs1]
          by_cases hrs0 : 0 ≤ rs.score
          · have hpos : 0 ≤ w1 * normSemScore rs.score :=
              mul_nonneg hw1 (le_min hrs0 zero_le_one)
            linarith
          · push_neg at hrs0
            have hmin : normSemScore rs.score = rs.score :=
              min_eq_left (le_of_lt (lt_of_lt_of_le hrs0 zero_le_one))
            have hw1le : w1 ≤ 1 := by linarith
            have hprod : 0 ≤ (1 - w1) * (0 - rs.score) :=
              mul_nonneg (by linarith) (by linarith)
            have hexp : (1 - w1) * (0 - rs.score) = w1 * rs.score - rs.score := by ring
            rw [hexp] at hprod
            rw [hmin]
            linarith
        have hbase : baseFilter req (fuseEntry w1 w2 ⟨rs, rs.score, rk.score⟩) =
            baseFilter req (fuseEntry w1 w2 ⟨rk, 0, rk.score⟩) := by
          have hfn2 : rs.filename = rk.filename := hd_fn.trans hfn
          have hct2 : rs.content_type = rk.content_type := hd_ct.trans hct
          unfold baseFilter
          rw [fuseEntry_filename, fuseEntry_filename, fuseEntry_content_type,
            fuseEntry_content_type]
          simp only [hfn2, hct2]
          have hall : req.metadata_filters.all (fun kv =>
              !(fuseEntry w1 w2 ⟨rs, rs.score, rk.score⟩).metadata.isEmpty &&
                mget (fuseEntry w1 w2 ⟨rs, rs.score, rk.score⟩).metadata kv.1 == kv.2) =
              req.metadata_filters.all (fun kv =>
              !(fuseEntry w1 w2 ⟨rk, 0, rk.score⟩).metadata.isEmpty &&
                mget (fuseEntry w1 w2 ⟨rk, 0, rk.score⟩).metadata kv.1 == kv.2) := by
            apply all_congr'
            intro kv hkv
            have hres : ¬ kv.1 ∈ reservedKeys := hmf kv hkv
            have hpt : kv.1 ≠ "processing_time" := by
              intro he
              exact hres (by rw [he]; simp [reservedKeys])
            have hm1 : mget (fuseEntry w1 w2 ⟨rs, rs.score, rk.score⟩).metadata kv.1 =
                mget rk.metadata kv.1 := by
              rw [mget_fuseEntry_of_nonreserved hres]
              have h1 : mget rs.metadata kv.1 = mget d.metadata kv.1 := hd_meta kv.1 hpt
              have h2 : mget d.metadata kv.1 = mget rk.metadata kv.1 := by rw [hmeta]
              exact h1.trans h2
            have hm2 : mget (fuseEntry w1 w2 ⟨rk, 0, rk.score⟩).metadata kv.1 =
                mget rk.metadata kv.1 := mget_fuseEntry_of_nonreserved hres
            rw [fuseEntry_meta_nonempty, fuseEntry_meta_nonempty, hm1, hm2]
          rw [hall]
        rw [Bool.and_eq_true]
        refine ⟨?_, ?_⟩
        · rw [hbase]
          exact hb2
        · rw [fuseEntry_score]
          exact decide_eq_true hthr

/-- C6 counterexample: with the BM25 index unbuilt, the degraded hybrid
run is NOT equivalent to dense-only search: the dense path alone returns
the chunk (score 4/5 ≥ threshold 3/4), but the hybrid pipeline rescales
its score to 0.7·(4/5) = 14/25 and the threshold filter then drops it,
returning zero results. -/
theorem c6_counterexample_not_dense_equivalent :
    (hybridSearchModel c6docs 0 false (Except.ok []) c6req).results = [] ∧
    (searchServiceSearch c6docs c6req.limit c6req.threshold 0).length = 1 := by
  constructor
  · norm_num [hybridSearchModel, hybridPipeline, searchServiceSearch, injectPT, combineResults,
      combineEntries, addSemantic, addKeyword, normWeights, fuseEntry, combineScore, normSemScore,
      normKwScore, scoreMetaAdds, updateMeta, sortByScoreDesc, sortListBy, insertBy, applyFilters,
      metaFilterStep, sortResults, keyOf, recoverPath, c6docs, c6req, min_def]
  · norm_num [searchServiceSearch, injectPT, updateMeta, c6docs, c6req]

/-- C6 (amended): with the lexical index unbuilt or empty, `hybrid_search`
does not raise, tags the response "semantic" rather than "hybrid", and
every returned result is a chunk retrieved by the dense path — but its
score is the dense score rescaled by the normalized semantic weight and
re-filtered against the threshold, so the result set is a (possibly
strict) subset of dense-only search rather than equivalent to it. -/
theorem lexical_unavailable_degrades (docs : List SearchResult) (pt : ℚ)
    (kwO : Except String (List SearchResult)) (req : HybridSearchRequest) (r : SearchResult)
    (hr : r ∈ (hybridSearchModel docs pt false kwO req).results) :
    hybridSearchService true false
        (Except.ok (searchServiceSearch docs (req.limit * 2) req.threshold pt)) kwO req =
      Except.ok (hybridSearchModel docs pt false kwO req) ∧
    (hybridSearchModel docs pt false kwO req).search_type = "semantic" ∧
    (findByKey (searchServiceSearch docs (req.limit * 2) req.threshold pt) (keyOf r)).isSome := by
  refine ⟨rfl, rfl, ?_⟩
  obtain ⟨p, hp, hre⟩ := mem_results_model hr
  rcases combineEntries_provenance hp with ⟨rs, hrs, h1, -, -⟩ | ⟨rk, hrk, -, -, -⟩
  · unfold findByKey
    rw [List.find?_isSome]
    refine ⟨rs, hrs, ?_⟩
    have hk : keyOf r = keyOf rs := by
      rw [hre, keyOf_fuseEntry, key_of_mem_combineEntries hp, h1]
    simp [hk]
  · simp at hrk

/-- C5 counterexample: raising the threshold from 1/2 to 3/5 RAISES
total_results from 0 to 1 for the same query, weights, filters and limit.
The fusion step injects `semantic_score` into result metadata before the
metadata filters run: at threshold 1/2 the chunk enters through the dense
path, gets `semantic_score = 11/20` and fails the `semantic_score = 0`
metadata filter; at threshold 3/5 the dense path drops it, it enters
through the lexical path with `semantic_score = 0`, passes the filter, and
its lexical-only combined score 1 clears the threshold. -/
theorem c5_counterexample_threshold_not_monotone :
    (1/2 : ℚ) ≤ 3/5 ∧
    (hybridSearchModel c5cdocs 0 true (Except.ok c5ckw) (c5creq (1/2))).total_results = 0 ∧
    (hybridSearchModel c5cdocs 0 true (Except.ok c5ckw) (c5creq (3/5))).total_results = 1 := by
  refine ⟨by norm_num, ?_, ?_⟩ <;>
    norm_num [hybridSearchModel, hybridPipeline, searchServiceSearch, injectPT, combineResults,
      combineEntries, addSemantic, addKeyword, normWeights, fuseEntry, combineScore, normSemScore,
      normKwScore, scoreMetaAdds, updateMeta, sortByScoreDesc, sortListBy, insertBy, applyFilters,
      metaFilterStep, sortResults, keyOf, recoverPath, mget, mlookup, c5cdocs, c5ckw, c5creq,
      min_def]

/-- C5 (amended): for the same query, nonnegative weights, filters and
limit — provided the metadata filters do not key on the bookkeeping fields
the engine itself writes into result metadata (`semantic_score`,
`keyword_score`, `combined_score`, `search_type`, `processing_time`) — and
under the engine's corpus invariants (dense candidates sorted by score
with distinct keys, lexical results with distinct keys drawn from the same
corpus rows), raising the threshold never increases `total_results`. -/
theorem raising_threshold_never_increases_total (docs kw : List SearchResult) (pt : ℚ)
    (req : HybridSearchRequest) (t1 t2 : ℚ)
    (hsorted : ScoresSortedDesc docs) (hndocs : NodupKeys docs) (hnkw : NodupKeys kw)
    (hcons : ∀ d ∈ docs, ∀ rk ∈ kw, keyOf d = keyOf rk →
      d.filename = rk.filename ∧ d.content_type = rk.content_type ∧ d.metadata = rk.metadata)
    (hsw : 0 ≤ req.semantic_weight) (hkw : 0 ≤ req.keyword_weight)
    (hmf : ∀ kv ∈ req.metadata_filters, ¬ kv.1 ∈ reservedKeys)
    (h12 : t1 ≤ t2) :
    (hybridSearchModel docs pt true (Except.ok kw) { req with threshold := t2 }).total_results ≤
      (hybridSearchModel docs pt true (Except.ok kw) { req with threshold := t1 }).total_results := by
  obtain ⟨hw1, hw2, hsum⟩ := normWeights_bounds hsw hkw
  rw [total_results_model, total_results_model]
  exact monotone_core docs kw pt req t1 t2 _ _ hsorted hndocs hnkw hcons hw1 hw2 hsum hmf h12

/-- Witness for C5's amended theorem at the concrete corpus with
thresholds 0 ≤ 3/4. -/
theorem raising_threshold_never_increases_total_witness :
    (hybridSearchModel c5wdocs 0 true (Except.ok c5wkw)
      { c5wreq with threshold := (3/4 : ℚ) }).total_results ≤
      (hybridSearchModel c5wdocs 0 true (Except.ok c5wkw)
        { c5wreq with threshold := (0 : ℚ) }).total_results :=
  raising_threshold_never_increases_total c5wdocs c5wkw 0 c5wreq 0 (3/4)
    (by simp [ScoresSortedDesc, c5wdocs])
    (by simp [NodupKeys, c5wdocs])
    (by simp [NodupKeys, c5wkw])
    (by simp [c5wdocs, c5wkw])
    (by norm_num [c5wreq])
    (by norm_num [c5wreq])
    (by simp [c5wreq])
    (by norm_num)

/-- Witness for C6's amended theorem at the concrete degraded run with a
surviving result. -/
theorem lexical_unavailable_degrades_witness :
    hybridSearchService true false
        (Except.ok (searchServiceSearch c6docs (c6wreq.limit * 2) c6wreq.threshold 0))
        (Except.ok []) c6wreq =
      Except.ok (hybridSearchModel c6docs 0 false (Except.ok []) c6wreq) ∧
    (hybridSearchModel c6docs 0 false (Except.ok []) c6wreq).search_type = "semantic" ∧
    (findByKey (searchServiceSearch c6docs (c6wreq.limit * 2) c6wreq.threshold 0)
      (keyOf c6wres)).isSome :=
  lexical_unavailable_degrades c6docs 0 (Except.ok []) c6wreq c6wres
    (by norm_num [c6wres, hybridSearchModel, hybridPipeline, searchServiceSearch, injectPT,
      combineResults, combineEntries, addSemantic, addKeyword, normWeights, fuseEntry,
      combineScore, normSemScore, normKwScore, scoreMetaAdds, updateMeta, sortByScoreDesc,
      sortListBy, insertBy, applyFilters, metaFilterStep, sortResults, keyOf, recoverPath,
      c6docs, c6wreq, min_def])

end ConfluxAI
